import Mathlib

/-!
Shallow embedding of the dmc.token contract (src/contracts/dmc.token/src/dmc.cpp)
and proofs about the claims of its natural-language specification.

Modelling conventions:
* eosio account names are natural numbers; timestamps are seconds as naturals.
* C++ double arithmetic is embedded as exact rational arithmetic (ℚ).
* Asset quantities (int64 amounts) are embedded as ℤ.  The helper functions
  get_asset_by_amount / get_real_asset live in the repository's utils.hpp,
  which is not under src/; following the spec's formulas (payment equals
  ceil(price times amount), reward floored), they are modelled as plain
  ceiling/floor on the rational value, i.e. one asset unit is one token.
* Each contract action is a function from a state (plus host-supplied inputs
  such as the current time and the digest-derived identifier) to
  Option TokenState; none models the abort-and-revert of a failed check, so
  an action is atomic by construction.
* multi_index tables are association lists; a secondary-index find returns
  the first matching row in primary-key order, and row reads are always
  fresh (a re-read through any iterator sees the latest modification).
-/

namespace DmcToken

/-- eosio account names, embedded as naturals. -/
abbrev AccountName := ℕ

/-- The three currencies of the contract: PST (proof of service token),
DMC (the collateral token) and RSI (the reward unit). -/
inductive Sym : Type
  | pst : Sym
  | dmc : Sym
  | rsi : Sym
deriving DecidableEq

/-- One row of the per-owner bill_stats table (dmc.token.hpp is not in src/;
fields are exactly the ones assigned in token::bill, dmc.cpp lines 31-42). -/
structure Bill where
  primary : ℕ
  bill_id : ℕ
  owner : AccountName
  unmatched : ℤ
  matched : ℤ
  price : ℕ
  created_at : ℕ
  updated_at : ℕ
  expire_on : ℕ
  deposit_ratio : ℕ
deriving DecidableEq

/-- One row of a maker's dmc_maker_pool table: a depositor and its weight. -/
structure PoolShare where
  owner : AccountName
  weight : ℚ
deriving DecidableEq

/-- One row of the dmc_makers table (fields as assigned in token::increase,
dmc.cpp lines 190-197, plus rate_updated_at used by setmakerbstr). -/
structure Maker where
  miner : AccountName
  current_rate : ℚ
  miner_rate : ℚ
  total_weight : ℚ
  total_staked : ℤ
  benchmark_stake_rate : ℕ
  rate_updated_at : ℕ
deriving DecidableEq

/-- One row of the dmc_orders table (the fields assigned in token::order,
dmc.cpp lines 122-142; the always-zero rsi assets and empty timestamps are
kept as the constants they are initialised with). -/
structure DmcOrder where
  order_id : ℕ
  user : AccountName
  miner : AccountName
  bill_id : ℕ
  user_pledge : ℤ
  miner_lock_pst : ℤ
  miner_lock_dmc : ℤ
  settlement_pledge : ℤ
  lock_pledge : ℤ
  price_asset : ℤ
  order_state : ℕ
  deposit : ℤ
  deposit_valid : ℕ
deriving DecidableEq

/-- One row of the dmc_challenges table (the fields assigned in token::order,
dmc.cpp lines 147-156). -/
structure DmcChallenge where
  order_id : ℕ
  challenge_state : ℕ
  user_lock : ℤ
  miner_pay : ℤ
deriving DecidableEq

/-- One row of the price_table of the price oracle. -/
structure PriceSample where
  primary : ℕ
  bill_id : ℕ
  price : ℚ
  created_at : ℕ
deriving DecidableEq

/-- The (unique) row of the avg_table of the price oracle. -/
structure AvgRow where
  total : ℚ
  count : ℤ
  avg : ℚ
deriving DecidableEq

/-- The whole on-chain state touched by the embedded actions.  Bills and
pool shares live in per-owner scoped tables, embedded as association lists
from the scope account to the rows in primary-key (insertion) order. -/
structure TokenState where
  bills : List (AccountName × List Bill)
  makers : List Maker
  pools : List (AccountName × List PoolShare)
  pst_stats : List (AccountName × ℤ)
  pst_supply : ℤ
  balances : AccountName → Sym → ℤ
  locked_balances : AccountName → ℤ
  orders : List DmcOrder
  challenges : List DmcChallenge
  prices : List PriceSample
  avg : Option AvgRow
  config : ℕ → Option ℕ

/-- OrderStateWaiting lifecycle constant. -/
def OrderStateWaiting : ℕ := 0

/-- ChallengePrepare lifecycle constant. -/
def ChallengePrepare : ℕ := 0

/-- The system administrator identity (require_auth target of liquidation). -/
def eos_account : AccountName := 0

/-- The system recovery account credited with penalty collateral. -/
def system_account : AccountName := 1

/-- Modelled from the spec: numeric default of the minimum service interval
(config key serverinter); the constant lives in the missing header and no
later theorem depends on its value. -/
def default_service_interval : ℕ := 86400

/-- Modelled from the spec: default of the minimum order-service epoch
(config key ordsrvepoch); value from the missing header, unused by proofs. -/
def default_order_service_epoch : ℕ := 86400

/-- Modelled from the spec: default of the order claims interval
(config key claiminter); value from the missing header, unused by proofs. -/
def default_dmc_claims_interval : ℕ := 86400

/-- Modelled from the spec: default of the bill bonus-accrual window
(config key billinter); value from the missing header, unused by proofs. -/
def default_bill_dmc_claims_interval : ℕ := 5184000

/-- Modelled from the spec: default benchmark stake rate (config key bmrate,
a percentage-encoded value); value from the missing header. -/
def default_benchmark_stake_rate : ℕ := 200

/-- Modelled from the spec: default liquidation penalty percentage
(config key penaltyrate); value from the missing header. -/
def default_penalty_rate : ℕ := 30

/-- Modelled from the spec: default initial price used by get_dmc_rate while
the oracle has no samples (config key initalprice). -/
def default_initial_price : ℕ := 1

/-- Modelled from the spec: the initial weight constant a maker pool is
bootstrapped with (static_weights in the missing header). -/
def static_weights : ℚ := 10000

/-- Modelled from the spec: the incentive rate of the bonus-accrual formula
(incentive_rate in the missing header); no theorem depends on its value. -/
def incentive_rate : ℚ := 1 / 10

/-- Modelled from the spec: length in seconds of the trailing window of the
price oracle (price_fluncuation_interval in the missing header). -/
def price_fluncuation_interval : ℕ := 3600

/-- day_sec constant of the missing header (seconds per day). -/
def day_sec : ℕ := 86400

/-- uint64_max, used by the source as an infinite-rate sentinel double. -/
def uint64_max : ℚ := 18446744073709551615

/-- The eosio name value of the config key serverinter (the uint64 base-32
name encodings are abbreviated as small distinct naturals). -/
def serverinter_n : ℕ := 1

/-- The eosio name value of the config key ordsrvepoch. -/
def ordsrvepoch_n : ℕ := 2

/-- The eosio name value of the config key claiminter. -/
def claiminter_n : ℕ := 3

/-- The eosio name value of the config key billinter. -/
def billinter_n : ℕ := 4

/-- The eosio name value of the config key bmrate. -/
def bmrate_n : ℕ := 5

/-- The eosio name value of the config key penaltyrate. -/
def penaltyrate_n : ℕ := 6

/-- The eosio name value of the config key initalprice. -/
def initalprice_n : ℕ := 7

/-- C++ conversion of a double to an integer: truncation toward zero. -/
def truncQ (q : ℚ) : ℤ := if 0 ≤ q then ⌊q⌋ else ⌈q⌉

/-- get_real_asset of the missing utils.hpp: the real value of an asset
quantity.  Modelled from the spec: one asset unit is one token, so the real
value is the amount itself. -/
def get_real_asset (amount : ℤ) : ℚ := (amount : ℚ)

/-- get_asset_by_amount with std::ceil of the missing utils.hpp.  Modelled
from the spec: amounts owed round up, one asset unit being one token. -/
def get_asset_by_amount_ceil (x : ℚ) : ℤ := ⌈x⌉

/-- get_asset_by_amount with std::floor of the missing utils.hpp.  Modelled
from the spec: amounts distributed round down. -/
def get_asset_by_amount_floor (x : ℚ) : ℤ := ⌊x⌋

/-- Lookup in a scoped-table association list (first entry with the key). -/
def scopeOf {α : Type} : List (AccountName × α) → AccountName → Option α
  | [], _ => none
  | (k, v) :: xs, k' => if k = k' then some v else scopeOf xs k'

/-- Replace the rows of one scope (inserting the scope if absent). -/
def setScope {α : Type} : List (AccountName × α) → AccountName → α → List (AccountName × α)
  | [], k, v => [(k, v)]
  | (k0, v0) :: xs, k, v => if k0 = k then (k0, v) :: xs else (k0, v0) :: setScope xs k v

/-- The bill_stats table of one owner (empty if the scope was never used). -/
def billsOf (s : TokenState) (owner : AccountName) : List Bill :=
  (scopeOf s.bills owner).getD []

/-- The dmc_maker_pool table of one miner. -/
def poolOf (s : TokenState) (miner : AccountName) : List PoolShare :=
  (scopeOf s.pools miner).getD []

/-- byid secondary-index find on a bill table: the first row carrying the
id in primary-key order. -/
def findBillById : List Bill → ℕ → Option Bill
  | [], _ => none
  | b :: bs, i => if b.bill_id = i then some b else findBillById bs i

/-- multi_index modify through a byid iterator: rewrite the first row with
the id. -/
def modifyBillById (f : Bill → Bill) : List Bill → ℕ → List Bill
  | [], _ => []
  | b :: bs, i => if b.bill_id = i then f b :: bs else b :: modifyBillById f bs i

/-- multi_index erase through a byid iterator: drop the first row with the id. -/
def eraseBillById : List Bill → ℕ → List Bill
  | [], _ => []
  | b :: bs, i => if b.bill_id = i then bs else b :: eraseBillById bs i

/-- available_primary_key of a bill table: one past the largest used key. -/
def nextPrimary (bs : List Bill) : ℕ :=
  (bs.map (fun b => b.primary + 1)).foldr max 0

/-- Primary-key find on the dmc_makers table. -/
def findMaker : List Maker → AccountName → Option Maker
  | [], _ => none
  | m :: ms, o => if m.miner = o then some m else findMaker ms o

/-- multi_index modify of a maker row: rewrite the first row with the key. -/
def setMaker : List Maker → Maker → List Maker
  | [], _ => []
  | m :: ms, m' => if m.miner = m'.miner then m' :: ms else m :: setMaker ms m'

/-- multi_index erase of a maker row. -/
def eraseMaker : List Maker → AccountName → List Maker
  | [], _ => []
  | m :: ms, o => if m.miner = o then ms else m :: eraseMaker ms o

/-- multi_index emplace into the dmc_makers table (appended; key freshness
is the caller's concern exactly as in the source). -/
def emplaceMaker (ms : List Maker) (m : Maker) : List Maker := ms ++ [m]

/-- Primary-key find in a maker's pool table. -/
def findShare : List PoolShare → AccountName → Option PoolShare
  | [], _ => none
  | p :: ps, o => if p.owner = o then some p else findShare ps o

/-- multi_index modify of a pool share. -/
def modifyShare (f : PoolShare → PoolShare) : List PoolShare → AccountName → List PoolShare
  | [], _ => []
  | p :: ps, o => if p.owner = o then f p :: ps else p :: modifyShare f ps o

/-- multi_index erase of a pool share. -/
def eraseShare : List PoolShare → AccountName → List PoolShare
  | [], _ => []
  | p :: ps, o => if p.owner = o then ps else p :: eraseShare ps o

/-- Lookup of a pststats row amount (the per-maker minted PST). -/
def pstAmountOf (s : TokenState) (owner : AccountName) : Option ℤ :=
  scopeOf s.pst_stats owner

/-- change_pst of the missing source part: add delta to the owner's pststats
row, creating it at zero first.  Modelled from the spec: MintedStats
increases on mint and decreases on liquidation burn. -/
def change_pst (s : TokenState) (owner : AccountName) (delta : ℤ) : TokenState :=
  { s with pst_stats := setScope s.pst_stats owner ((pstAmountOf s owner).getD 0 + delta) }

/-- add_stats of the missing source part: the global PST supply grows. -/
def add_stats (s : TokenState) (amount : ℤ) : TokenState :=
  { s with pst_supply := s.pst_supply + amount }

/-- sub_stats of the missing source part: the global PST supply shrinks. -/
def sub_stats (s : TokenState) (amount : ℤ) : TokenState :=
  { s with pst_supply := s.pst_supply - amount }

/-- Point update of the balance map. -/
def setBal (b : AccountName → Sym → ℤ) (o : AccountName) (y : Sym) (v : ℤ) :
    AccountName → Sym → ℤ :=
  fun n z => if n = o ∧ z = y then v else b n z

/-- sub_balance of the missing source part: debit a free balance, aborting
on insufficient funds (spec: debit fails on insufficient funds). -/
def sub_balance (s : TokenState) (o : AccountName) (y : Sym) (amount : ℤ) :
    Option TokenState :=
  if amount ≤ s.balances o y then
    some { s with balances := setBal s.balances o y (s.balances o y - amount) }
  else none

/-- add_balance of the missing source part: credit a free balance. -/
def add_balance (s : TokenState) (o : AccountName) (y : Sym) (amount : ℤ) : TokenState :=
  { s with balances := setBal s.balances o y (s.balances o y + amount) }

/-- lock_add_balance of the missing source part: credit a time-locked
balance (the 3-day maturity is not observable by any claim, so only the
amount is tracked). -/
def lock_add_balance (s : TokenState) (o : AccountName) (amount : ℤ) : TokenState :=
  { s with locked_balances := fun n => if n = o then s.locked_balances o + amount else s.locked_balances n }

namespace token

/-- token::get_dmc_config (dmc.cpp lines 596-603): configured value or default. -/
def get_dmc_config (s : TokenState) (key : ℕ) (default_value : ℕ) : ℕ :=
  (s.config key).getD default_value

/-- The average price the oracle currently reports: the avg row if the
avg_table is non-empty, otherwise the configured initial price. -/
def oracle_price (s : TokenState) : ℚ :=
  match s.avg with
  | none => (get_dmc_config s initalprice_n default_initial_price : ℚ)
  | some a => a.avg

/-- token::get_dmc_rate (dmc.cpp lines 605-615): a percentage-encoded rate
valued at the current average price. -/
def get_dmc_rate (s : TokenState) (rate_value : ℕ) : ℚ :=
  (rate_value : ℚ) / 100 * oracle_price s

/-- get_dmc_by_vrsi of the missing source part.  Modelled from the spec:
the RSI reward is converted into collateral-equivalent units via the
current price valuation, rounding a distributed amount down. -/
def get_dmc_by_vrsi (s : TokenState) (rsi_amount : ℤ) : ℤ :=
  get_asset_by_amount_floor (get_real_asset rsi_amount * oracle_price s)

/-- token::cal_current_rate (dmc.cpp lines 392-403).  The source divides the
real value of the passed asset by the minted amount, so the asset argument
is taken here as its real (rational) value. -/
def cal_current_rate (s : TokenState) (dmc_value : ℚ) (owner : AccountName) : ℚ :=
  match pstAmountOf s owner with
  | some amt => if amt ≠ 0 then dmc_value / (amt : ℚ) else uint64_max
  | none => uint64_max

/-- token::calbonus (dmc.cpp lines 491-527): time-decayed bonus accrual for
one bill, crediting the converted reward to the maker's total_staked and
returning the capped now timestamp together with the new state.  The
uint64 subtraction now_t - updated_at_t is embedded with its wrap-around,
guarded exactly by the source's subtractive-overflow check. -/
def calbonus (s : TokenState) (owner : AccountName) (bill_id : ℕ) (now : ℕ) :
    Option (ℕ × TokenState) :=
  match findBillById (billsOf s owner) bill_id with
  | none => none
  | some ust =>
    match findMaker s.makers owner with
    | none => none
    | some iter =>
      let bill_dmc_claims_interval := get_dmc_config s billinter_n default_bill_dmc_claims_interval
      let max_dmc_claims_interval := ust.created_at + bill_dmc_claims_interval
      let now_time_t := if max_dmc_claims_interval ≤ now then max_dmc_claims_interval else now
      if ust.updated_at ≤ max_dmc_claims_interval then
        let duration := (now_time_t + 2 ^ 64 - ust.updated_at) % 2 ^ 64
        if duration ≤ now_time_t then
          let base := get_asset_by_amount_floor
            (incentive_rate * (get_dmc_config s bmrate_n default_benchmark_stake_rate : ℚ)
              / 100 / (default_bill_dmc_claims_interval : ℚ))
          let quantity := base * (duration : ℤ) * ust.unmatched
          if quantity ≠ 0 then
            let dmc_quantity := get_dmc_by_vrsi s quantity
            if 0 < dmc_quantity then
              some (now_time_t,
                { s with makers :=
                    setMaker s.makers { iter with total_staked := iter.total_staked + dmc_quantity } })
            else some (now_time_t, s)
          else some (now_time_t, s)
        else none
      else some (now_time_t, s)

/-- token::bill (dmc.cpp lines 11-44): create a standing offer.  digest_id
stands for the 64-bit truncation of the sha256 digest the source derives
the bill id from (a host-supplied value from the embedding's viewpoint);
memo_size is the byte length of the memo string. -/
def bill (s : TokenState) (owner : AccountName) (amount : ℤ) (price : ℚ)
    (expire_on : ℕ) (deposit_ratio : ℕ) (memo_size : ℕ) (now : ℕ) (digest_id : ℕ) :
    Option TokenState :=
  if memo_size ≤ 256 ∧ (1 / 10000 : ℚ) ≤ price ∧ price < 2 ^ 32 ∧ 0 < amount ∧
      now + get_dmc_config s serverinter_n default_service_interval ≤ expire_on then
    let price_t : ℕ := (truncQ (price * 2 ^ 32)).toNat
    (sub_balance s owner Sym.pst amount).map (fun s1 =>
      let row : Bill :=
        { primary := nextPrimary (billsOf s1 owner)
          bill_id := digest_id
          owner := owner
          unmatched := amount
          matched := 0
          price := price_t
          created_at := now
          updated_at := now
          expire_on := expire_on
          deposit_ratio := deposit_ratio }
      { s1 with bills := setScope s1.bills owner (billsOf s1 owner ++ [row]) })
  else none

/-- token::unbill (dmc.cpp lines 46-60): run bonus accrual, delete the bill
and refund its unmatched amount to the owner's free balance. -/
def unbill (s : TokenState) (owner : AccountName) (bill_id : ℕ) (memo_size : ℕ)
    (now : ℕ) : Option TokenState :=
  if memo_size ≤ 256 then
    match findBillById (billsOf s owner) bill_id with
    | none => none
    | some ust =>
      (calbonus s owner bill_id now).map (fun p =>
        let s1 := p.2
        let s2 := { s1 with bills := setScope s1.bills owner (eraseBillById (billsOf s1 owner) bill_id) }
        add_balance s2 owner Sym.pst ust.unmatched)
  else none

end token

/-- Order of the bytime secondary index on the price table: by timestamp,
ties broken by primary key. -/
def timeLe (p q : PriceSample) : Prop :=
  p.created_at < q.created_at ∨ (p.created_at = q.created_at ∧ p.primary ≤ q.primary)

instance : DecidableRel timeLe := fun p q => by
  unfold timeLe
  infer_instance

/-- Insertion into a bytime-ordered sample list. -/
def insertSample (p : PriceSample) : List PriceSample → List PriceSample
  | [] => [p]
  | q :: qs => if timeLe p q then p :: q :: qs else q :: insertSample p qs

/-- The price table as iterated through its bytime index. -/
def sortByTime : List PriceSample → List PriceSample
  | [] => []
  | p :: ps => insertSample p (sortByTime ps)

/-- available_primary_key of the price table. -/
def nextPricePrimary (ps : List PriceSample) : ℕ :=
  (ps.map (fun p => p.primary + 1)).foldr max 0

/-- The eviction loop of token::trace_price_history (dmc.cpp lines 635-645),
walking the bytime order and erasing every sample older than rtime.  The
source runs it = iter.erase(it) and only then subtracts it->price, so the
running total is decremented by the price of the sample FOLLOWING the
evicted one (undefined behaviour when none follows, embedded here as
subtracting zero). -/
def evict_loop (rtime : ℤ) : List PriceSample → AvgRow → List PriceSample × AvgRow
  | [], a => ([], a)
  | p :: ps, a =>
    if (p.created_at : ℤ) < rtime then
      let nextPrice : ℚ := match ps with | [] => 0 | q :: _ => q.price
      evict_loop rtime ps { total := a.total - nextPrice, count := a.count - 1, avg := a.avg }
    else (p :: ps, a)

namespace token

/-- token::trace_price_history (dmc.cpp lines 617-659): evict samples older
than the trailing window, append the new sample at the current time and
refresh the running aggregate. -/
def trace_price_history (s : TokenState) (price : ℚ) (bill_id : ℕ) (now : ℕ) :
    TokenState :=
  let rtime : ℤ := (now : ℤ) - (price_fluncuation_interval : ℤ)
  let aitr := s.avg.getD { total := 0, count := 0, avg := 0 }
  let pr := evict_loop rtime (sortByTime s.prices) aitr
  let row : PriceSample :=
    { primary := nextPricePrimary pr.1, bill_id := bill_id, price := price, created_at := now }
  let a2 : AvgRow :=
    { total := pr.2.total + price
      count := pr.2.count + 1
      avg := (pr.2.total + price) / ((pr.2.count + 1 : ℤ) : ℚ) }
  { s with prices := pr.1 ++ [row], avg := some a2 }

end token

/-- Membership test for an order id. -/
def orderIdTaken : List DmcOrder → ℕ → Bool
  | [], _ => false
  | o :: os, i => if o.order_id = i then true else orderIdTaken os i

/-- The linear id probing of token::order (dmc.cpp lines 106-108),
incrementing past taken ids; the fuel argument (always called with more
fuel than there are orders) makes the recursion structural. -/
def probeOrderId (tbl : List DmcOrder) : ℕ → ℕ → ℕ
  | i, 0 => i
  | i, fuel + 1 => if orderIdTaken tbl i then probeOrderId tbl (i + 1) fuel else i

namespace token

/-- token::order (dmc.cpp lines 62-174): match a buyer against a bill,
escrow payment and deposit, accrue the bonus, move the matched amount,
update the maker's rate bookkeeping and record the trade's price sample.
digest_id stands for the 64-bit digest truncation seeding the order id.
generate_maker_snapshot (whose definition is not under src/) writes a
snapshot table outside the modelled data model and per the spec has no
effect on bills, makers, pools, balances or the oracle; the inline
notifications are fire-and-forget events outside the state. -/
def order (s : TokenState) (owner miner : AccountName) (bill_id : ℕ)
    (amount reserve : ℤ) (memo_size : ℕ) (deposit_valid : ℕ) (now : ℕ)
    (digest_id : ℕ) : Option TokenState :=
  if memo_size ≤ 256 ∧ owner ≠ miner ∧ 0 < amount ∧ 0 ≤ reserve then
    match findBillById (billsOf s miner) bill_id with
    | none => none
    | some ust =>
      let order_service_epoch := get_dmc_config s ordsrvepoch_n default_order_service_epoch
      if amount ≤ ust.unmatched ∧ deposit_valid ≤ ust.expire_on ∧
          now + order_service_epoch ≤ deposit_valid then
        let price : ℚ := (ust.price : ℚ) / 2 ^ 32
        let dmc_amount : ℚ := price * (amount : ℚ)
        let user_to_pay := get_asset_by_amount_ceil dmc_amount
        -- std::round(user_to_pay.quantity.amount * ust->deposit_ratio) of an
        -- integer product is the product itself
        let user_to_deposit : ℤ := user_to_pay * (ust.deposit_ratio : ℤ)
        if user_to_pay + user_to_deposit ≤ reserve then
          match sub_balance s owner Sym.dmc reserve with
          | none => none
          | some s1 =>
            match calbonus s1 miner bill_id now with
            | none => none
            | some (now_time_t, s2) =>
              let newBills :=
                modifyBillById (fun b =>
                    { b with unmatched := b.unmatched - amount
                             matched := b.matched + amount
                             updated_at := now_time_t })
                  (billsOf s2 miner) bill_id
              let s3 := { s2 with bills := setScope s2.bills miner newBills }
              -- (line 101: claims_interval is read but never used afterwards)
              let order_id := probeOrderId s3.orders digest_id (s3.orders.length + 1)
              match findMaker s3.makers miner with
              | none => none
              | some maker_iter =>
                -- (line 115: benchmark_stake_rate is computed but unused;
                --  lines 113-114 and 120, the actual stake debit, are
                --  commented out in the source)
                let r := cal_current_rate s3 (get_real_asset maker_iter.total_staked) miner
                let miner_lock_dmc : ℤ := truncQ ((user_to_pay : ℚ) * r)
                let newRate :=
                  cal_current_rate s3
                    (get_real_asset (maker_iter.total_staked - miner_lock_dmc)) miner
                let maker' := { maker_iter with current_rate := newRate }
                let s4 := { s3 with makers := setMaker s3.makers maker' }
                let order_info : DmcOrder :=
                  { order_id := order_id
                    user := owner
                    miner := miner
                    bill_id := bill_id
                    user_pledge := reserve - user_to_pay - user_to_deposit
                    miner_lock_pst := amount
                    miner_lock_dmc := miner_lock_dmc
                    settlement_pledge := 0
                    lock_pledge := user_to_pay
                    price_asset := user_to_pay
                    order_state := OrderStateWaiting
                    deposit := user_to_deposit
                    deposit_valid := deposit_valid }
                let challenge_info : DmcChallenge :=
                  { order_id := order_id
                    challenge_state := ChallengePrepare
                    user_lock := 0
                    miner_pay := 0 }
                let s5 := { s4 with orders := s4.orders ++ [order_info]
                                    challenges := s4.challenges ++ [challenge_info] }
                some (trace_price_history s5 price bill_id now)
        else none
      else none
  else none

/-- token::increase (dmc.cpp lines 176-238): stake DMC into a maker's pool,
bootstrapping the pool when the maker row does not exist yet.  A
multi_index emplace asserts when the primary key is already present, so
the pool-share emplace aborts on a stale share row. -/
def increase (s : TokenState) (owner : AccountName) (amount : ℤ)
    (miner : AccountName) : Option TokenState :=
  if 0 < amount then
    match sub_balance s owner Sym.dmc amount with
    | none => none
    | some s1 =>
      let p_iter := findShare (poolOf s1 miner) owner
      match findMaker s1.makers miner with
      | none =>
        if owner = miner then
          let m : Maker :=
            { miner := owner
              current_rate := cal_current_rate s1 (get_real_asset amount) miner
              miner_rate := 1
              total_weight := static_weights
              total_staked := amount
              benchmark_stake_rate := get_dmc_config s1 bmrate_n default_benchmark_stake_rate
              rate_updated_at := 0 }
          match p_iter with
          | some _ => none
          | none =>
            some { s1 with makers := emplaceMaker s1.makers m
                           pools := setScope s1.pools miner
                             (poolOf s1 miner ++ [{ owner := owner, weight := static_weights }]) }
        else none
      | some iter =>
        let new_total := iter.total_staked + amount
        let new_weight : ℚ := (amount : ℚ) / (iter.total_staked : ℚ) * iter.total_weight
        let total_weight := iter.total_weight + new_weight
        if 0 < new_weight ∧ (1 / 10000 : ℚ) < new_weight / total_weight then
          let r := cal_current_rate s1 (get_real_asset new_total) miner
          let iter' := { iter with total_weight := total_weight
                                   total_staked := new_total
                                   current_rate := r }
          let s2 := { s1 with makers := setMaker s1.makers iter' }
          let pool2 :=
            match p_iter with
            | some _ => modifyShare (fun sh => { sh with weight := sh.weight + new_weight })
                (poolOf s2 miner) owner
            | none => poolOf s2 miner ++ [{ owner := owner, weight := new_weight }]
          let s3 := { s2 with pools := setScope s2.pools miner pool2 }
          match findShare pool2 miner with
          | none => none
          | some miner_iter =>
            if iter.miner_rate ≤ miner_iter.weight / total_weight then some s3 else none
        else none
  else none

/-- token::redemption (dmc.cpp lines 240-314): withdraw a fraction of the
caller's pool weight, with the full-withdrawal and last-remaining-depositor
special cases, the miner self-redemption rate checks, the dust guard and
the maker teardown when the stake reaches zero.  The final remaining-share
check of line 313 dereferences the maker row erased at line 297 whenever
rate is not 1 and the stake reached zero; that undefined read is embedded
as an abort. -/
def redemption (s : TokenState) (owner : AccountName) (rate : ℚ)
    (miner : AccountName) : Option TokenState :=
  if 0 < rate ∧ rate ≤ 1 then
    match findMaker s.makers miner with
    | none => none
    | some iter =>
      match findShare (poolOf s miner) owner with
      | none => none
      | some p_iter =>
        let owner_weight := p_iter.weight * rate
        let rede_rate := owner_weight / iter.total_weight
        let rede_quantity : ℤ := ⌊(iter.total_staked : ℚ) * rede_rate⌋
        let branch : Option (List PoolShare × ℤ × ℚ × Bool) :=
          if rate = 1 then
            let pool1 := eraseShare (poolOf s miner) owner
            match pool1 with
            | [] => some (pool1, iter.total_staked, owner_weight, false)
            | [q] => some (pool1, rede_quantity, q.weight, true)
            | _ => some (pool1, rede_quantity, owner_weight, false)
          else
            let pool1 := modifyShare (fun sh => { sh with weight := sh.weight - owner_weight })
              (poolOf s miner) owner
            match findShare pool1 owner with
            | none => none
            | some p2 =>
              if 0 < p2.weight then some (pool1, rede_quantity, owner_weight, false) else none
        match branch with
        | none => none
        | some (pool1, rede_q, ow, last_one) =>
          let total_weight := iter.total_weight - ow
          let total_staked := iter.total_staked - rede_q
          let benchmark_stake_rate := get_dmc_rate s iter.benchmark_stake_rate
          let s0 := { s with pools := setScope s.pools miner pool1 }
          let r := cal_current_rate s0 (get_real_asset total_staked) miner
          let minerCheck : Option Unit :=
            if miner = owner then
              if benchmark_stake_rate ≤ r then
                if total_staked = 0 then
                  if iter.miner_rate ≤ uint64_max then some () else none
                else
                  match findShare pool1 miner with
                  | none => none
                  | some mi =>
                    if iter.miner_rate ≤ mi.weight / total_weight then some () else none
              else none
            else some ()
          match minerCheck with
          | none => none
          | some _ =>
            if 0 < rede_q then
              let s2 := lock_add_balance s0 owner rede_q
              if total_staked = 0 then
                if rate = 1 then some { s2 with makers := eraseMaker s2.makers miner }
                else none
              else
                let tw_final := if last_one then ow else total_weight
                let iter' := { iter with total_weight := tw_final
                                         total_staked := total_staked
                                         current_rate := r }
                let s3 := { s2 with makers := setMaker s2.makers iter' }
                if 0 ≤ total_staked ∧ 0 ≤ tw_final then
                  if rate = 1 then some s3
                  else
                    match findShare pool1 owner with
                    | none => none
                    | some p2 =>
                      if (1 / 10000 : ℚ) < p2.weight / tw_final then some s3 else none
                else none
            else none
  else none

/-- token::mint (dmc.cpp lines 316-345): mint PST against the staked
collateral, capped by the valued stake over the benchmark rate, with the
post-mint current-rate check. -/
def mint (s : TokenState) (owner : AccountName) (amount : ℤ) : Option TokenState :=
  if 0 < amount then
    match findMaker s.makers owner with
    | none => none
    | some iter =>
      let benchmark_stake_rate := get_dmc_rate s iter.benchmark_stake_rate
      let makerd_pst : ℚ := get_real_asset iter.total_staked / benchmark_stake_rate
      let added : ℤ := amount + (pstAmountOf s owner).getD 0
      if added ≤ ⌊makerd_pst⌋ then
        let s1 := add_stats s amount
        let s2 := add_balance s1 owner Sym.pst amount
        let s3 := change_pst s2 owner amount
        let r := cal_current_rate s3 (get_real_asset iter.total_staked) owner
        if benchmark_stake_rate ≤ r then
          some { s3 with makers := setMaker s3.makers { iter with current_rate := r } }
        else none
      else none
  else none

end token

/-- get_n of the maker row (declared in the missing header).  Modelled from
the spec: the liquidation scan compares the maker's current rate against
its own price-oracle-valued benchmark, so get_n returns the maker's
benchmark_stake_rate. -/
def Maker.get_n (m : Maker) : ℕ := m.benchmark_stake_rate

/-- Order of the byrate secondary index on the maker table: ascending
current_rate, ties broken by primary key. -/
def rateLe (m n : Maker) : Prop :=
  m.current_rate < n.current_rate ∨ (m.current_rate = n.current_rate ∧ m.miner ≤ n.miner)

instance : DecidableRel rateLe := fun m n => by
  unfold rateLe
  infer_instance

/-- Insertion into a byrate-ordered maker list. -/
def insertMakerByRate (m : Maker) : List Maker → List Maker
  | [] => [m]
  | n :: ns => if rateLe m n then m :: n :: ns else n :: insertMakerByRate m ns

/-- The maker table as iterated through its byrate index. -/
def sortByRate : List Maker → List Maker
  | [] => []
  | m :: ms => insertMakerByRate m (sortByRate ms)

/-- multi_index modify through the primary iterator of a bill table. -/
def modifyBillByPrimary (f : Bill → Bill) : List Bill → ℕ → List Bill
  | [], _ => []
  | b :: bs, k => if b.primary = k then f b :: bs else b :: modifyBillByPrimary f bs k

/-- multi_index erase through the primary iterator of a bill table. -/
def eraseBillByPrimary : List Bill → ℕ → List Bill
  | [], _ => []
  | b :: bs, k => if b.primary = k then bs else b :: eraseBillByPrimary bs k

namespace token

/-- The inner loop of token::liquidation (dmc.cpp lines 436-461): drain the
target burn amount from the maker's own outstanding bills oldest-first,
running bonus accrual on each touched bill before reducing it and erasing
bills that reach zero unmatched. -/
def drain_bills (owner : AccountName) (now : ℕ) :
    List Bill → TokenState → ℤ → Option (TokenState × ℤ)
  | [], s, leftover => some (s, leftover)
  | b :: bs, s, leftover =>
    if 0 < leftover then
      let sub_pst := if b.unmatched ≤ leftover then b.unmatched else leftover
      let leftover' := if b.unmatched ≤ leftover then leftover - b.unmatched else 0
      match calbonus s owner b.bill_id now with
      | none => none
      | some (now_time_t, s1) =>
        let bills2 := modifyBillByPrimary (fun r =>
            { r with unmatched := r.unmatched - sub_pst, updated_at := now_time_t })
          (billsOf s1 owner) b.primary
        let bills3 := if b.unmatched - sub_pst = 0 then eraseBillByPrimary bills2 b.primary
          else bills2
        drain_bills owner now bs { s1 with bills := setScope s1.bills owner bills3 } leftover'
    else some (s, leftover)

/-- The body of the liquidation scan for one selected maker (dmc.cpp lines
416-467): compute the target burn from the shortfall fraction, drain the
free balance then the bills, compute the penalty on the maker's (fresh)
staked collateral and queue the pair when both are nonzero.  The source
dereferences the maker's pststats row unchecked; a missing row is embedded
as amount zero (which queues nothing). -/
def liq_scan_step (s : TokenState) (now : ℕ) (mk : Maker) :
    Option (TokenState × Option (AccountName × ℤ × ℤ)) :=
  let owner := mk.miner
  let r1 := mk.current_rate
  let m := get_dmc_rate s mk.benchmark_stake_rate
  let sub_pst : ℚ := (1 - r1 / m) * get_real_asset ((pstAmountOf s owner).getD 0)
  let origin_liq_pst := get_asset_by_amount_ceil sub_pst
  let pst_sub := min origin_liq_pst (s.balances owner Sym.pst)
  match sub_balance s owner Sym.pst pst_sub with
  | none => none
  | some s1 =>
    let leftover0 := max (origin_liq_pst - pst_sub) 0
    match drain_bills owner now (billsOf s1 owner) s1 leftover0 with
    | none => none
    | some (s2, leftover) =>
      let sub_pst_asset := origin_liq_pst - leftover
      match findMaker s2.makers owner with
      | none => none
      | some mkNow =>
        let penalty_dmc : ℚ := (1 - r1 / m) * get_real_asset mkNow.total_staked *
          (get_dmc_config s2 penaltyrate_n default_penalty_rate : ℚ) / 100
        let penalty_dmc_asset := get_asset_by_amount_ceil penalty_dmc
        if sub_pst_asset ≠ 0 ∧ penalty_dmc_asset ≠ 0 then
          some (s2, some (owner, sub_pst_asset, penalty_dmc_asset))
        else some (s2, none)

/-- The scan phase of token::liquidation (dmc.cpp lines 415-468): walk the
byrate order while the maker is under its valued benchmark and the batch
has room, running the per-maker drain and collecting the burn/penalty
queue. -/
def liq_scan (now : ℕ) :
    List Maker → TokenState → List (AccountName × ℤ × ℤ) →
    Option (TokenState × List (AccountName × ℤ × ℤ))
  | [], s, acc => some (s, acc)
  | mk :: ms, s, acc =>
    if mk.current_rate < get_dmc_rate s mk.get_n ∧ acc.length < 20 then
      match liq_scan_step s now mk with
      | none => none
      | some (s', entry) =>
        liq_scan now ms s' (acc ++ entry.toList)
    else some (s, acc)

/-- One step of the apply phase of token::liquidation (dmc.cpp lines
470-488): burn the queued PST from the minted stats and global supply,
debit the penalty collateral from the stake and credit it to the system
recovery account. -/
def liq_apply_step (s : TokenState) (e : AccountName × ℤ × ℤ) : TokenState :=
  let s1 := change_pst s e.1 (-e.2.1)
  let s2 := sub_stats s1 e.2.1
  match findMaker s2.makers e.1 with
  | none => s2
  | some iter =>
    let new_staked := iter.total_staked - e.2.2
    let new_rate := cal_current_rate s2 (get_real_asset new_staked) e.1
    let iter' := { iter with total_staked := new_staked, current_rate := new_rate }
    let s3 := { s2 with makers := setMaker s2.makers iter' }
    add_balance s3 system_account Sym.dmc e.2.2

/-- The apply phase of token::liquidation: fold the queued liquidations. -/
def liq_apply (s : TokenState) (queue : List (AccountName × ℤ × ℤ)) : TokenState :=
  queue.foldl liq_apply_step s

/-- token::liquidation (dmc.cpp lines 405-489): the scan phase over the
byrate index followed by the apply phase over the queued liquidations.
require_auth(eos_account) is the host-checked caller precondition. -/
def liquidation (s : TokenState) (now : ℕ) : Option TokenState :=
  match liq_scan now (sortByRate s.makers) s [] with
  | none => none
  | some (s1, queue) => some (liq_apply s1 queue)

end token

/-! Auxiliary lemmas about the table embedding. -/

theorem scopeOf_setScope_self {α : Type} (l : List (AccountName × α)) (k : AccountName) (v : α) :
    scopeOf (setScope l k v) k = some v := by
  induction l with
  | nil => simp [setScope, scopeOf]
  | cons hd tl ih =>
    obtain ⟨k0, v0⟩ := hd
    by_cases h : k0 = k
    · simp [setScope, h, scopeOf]
    · simp [setScope, h, scopeOf, ih]

theorem scopeOf_setScope_ne {α : Type} (l : List (AccountName × α)) (k k' : AccountName)
    (v : α) (h : k ≠ k') : scopeOf (setScope l k v) k' = scopeOf l k' := by
  induction l with
  | nil => simp [setScope, scopeOf, h]
  | cons hd tl ih =>
    obtain ⟨k0, v0⟩ := hd
    by_cases hk : k0 = k
    · subst hk
      simp [setScope, scopeOf, h]
    · simp [setScope, hk, scopeOf, ih]

theorem billsOf_setScope_self (s : TokenState) (o : AccountName) (l : List Bill)
    (bl : List (AccountName × List Bill)) (h : s.bills = setScope bl o l) :
    billsOf s o = l := by
  simp [billsOf, h, scopeOf_setScope_self]

theorem findMaker_miner (ms : List Maker) (o : AccountName) (m : Maker)
    (h : findMaker ms o = some m) : m.miner = o := by
  induction ms with
  | nil => simp [findMaker] at h
  | cons hd tl ih =>
    by_cases hh : hd.miner = o
    · simp only [findMaker, if_pos hh] at h
      cases h
      exact hh
    · simp only [findMaker, if_neg hh] at h
      exact ih h

theorem findMaker_setMaker_self (ms : List Maker) (o : AccountName) (m m' : Maker)
    (h : findMaker ms o = some m) (hm : m'.miner = o) :
    findMaker (setMaker ms m') o = some m' := by
  induction ms with
  | nil => simp [findMaker] at h
  | cons hd tl ih =>
    by_cases hh : hd.miner = o
    · have : hd.miner = m'.miner := by rw [hh, hm]
      simp [setMaker, this, findMaker, hm]
    · have : ¬ hd.miner = m'.miner := by rw [hm]; exact hh
      simp only [findMaker, if_neg hh] at h
      simp [setMaker, this, findMaker, if_neg hh, ih h]

theorem findMaker_setMaker_ne (ms : List Maker) (o : AccountName) (m' : Maker)
    (hne : m'.miner ≠ o) : findMaker (setMaker ms m') o = findMaker ms o := by
  induction ms with
  | nil => simp [setMaker, findMaker, hne]
  | cons hd tl ih =>
    by_cases hh : hd.miner = m'.miner
    · have h1 : ¬ m'.miner = o := hne
      have h2 : ¬ hd.miner = o := by rw [hh]; exact hne
      simp [setMaker, hh, findMaker, h1, h2]
    · simp [setMaker, hh, findMaker, ih]

theorem findBillById_modifyBillById (f : Bill → Bill) (bs : List Bill) (i : ℕ)
    (hf : ∀ b, (f b).bill_id = b.bill_id) :
    findBillById (modifyBillById f bs i) i = (findBillById bs i).map f := by
  induction bs with
  | nil => simp [modifyBillById, findBillById]
  | cons b bs ih =>
    by_cases hb : b.bill_id = i
    · simp [modifyBillById, hb, findBillById, hf]
    · simp [modifyBillById, hb, findBillById, ih]

theorem findBillById_append (l l2 : List Bill) (i : ℕ) (h : findBillById l i = none) :
    findBillById (l ++ l2) i = findBillById l2 i := by
  induction l with
  | nil => simp
  | cons b bs ih =>
    by_cases hb : b.bill_id = i
    · simp [findBillById, hb] at h
    · simp only [findBillById, if_neg hb] at h
      simp [findBillById, hb, ih h]

theorem eraseBillById_append_last (l : List Bill) (b : Bill) (i : ℕ)
    (h : findBillById l i = none) (hb : b.bill_id = i) :
    eraseBillById (l ++ [b]) i = l := by
  induction l with
  | nil => simp [eraseBillById, hb]
  | cons c cs ih =>
    by_cases hc : c.bill_id = i
    · simp [findBillById, hc] at h
    · simp only [findBillById, if_neg hc] at h
      simp [eraseBillById, hc, ih h]

theorem setBal_self (b : AccountName → Sym → ℤ) (o : AccountName) (y : Sym) (v : ℤ) :
    setBal b o y v o y = v := by
  simp [setBal]

theorem cal_current_rate_congr (s1 s2 : TokenState) (x : ℚ) (o : AccountName)
    (h : s1.pst_stats = s2.pst_stats) :
    token.cal_current_rate s1 x o = token.cal_current_rate s2 x o := by
  simp [token.cal_current_rate, pstAmountOf, h]

theorem sub_balance_spec (s s' : TokenState) (o : AccountName) (y : Sym) (a : ℤ)
    (h : sub_balance s o y a = some s') :
    a ≤ s.balances o y ∧
      s' = { s with balances := setBal s.balances o y (s.balances o y - a) } := by
  unfold sub_balance at h
  split at h
  · cases h
    exact ⟨by assumption, rfl⟩
  · cases h

/-- What a successful calbonus guarantees: the bill and maker exist, the
returned timestamp is the capped now, every state component except the
makers table is untouched, and the makers table at most gains a
nonnegative bonus on the owner's total_staked. -/
theorem calbonus_spec (s s' : TokenState) (o : AccountName) (i now t : ℕ)
    (h : token.calbonus s o i now = some (t, s')) :
    ∃ ust iter,
      findBillById (billsOf s o) i = some ust ∧
      findMaker s.makers o = some iter ∧
      t = (if ust.created_at + token.get_dmc_config s billinter_n default_bill_dmc_claims_interval ≤ now
           then ust.created_at + token.get_dmc_config s billinter_n default_bill_dmc_claims_interval
           else now) ∧
      s'.bills = s.bills ∧ s'.pools = s.pools ∧ s'.pst_stats = s.pst_stats ∧
      s'.pst_supply = s.pst_supply ∧ s'.balances = s.balances ∧
      s'.locked_balances = s.locked_balances ∧ s'.orders = s.orders ∧
      s'.challenges = s.challenges ∧ s'.prices = s.prices ∧ s'.avg = s.avg ∧
      s'.config = s.config ∧
      ∃ dq : ℤ, 0 ≤ dq ∧
        (s'.makers = s.makers ∨
         s'.makers = setMaker s.makers { iter with total_staked := iter.total_staked + dq }) := by
  unfold token.calbonus at h
  cases hb : findBillById (billsOf s o) i with
  | none => rw [hb] at h; cases h
  | some ust =>
    cases hm : findMaker s.makers o with
    | none => rw [hb, hm] at h; cases h
    | some iter =>
      simp only [hb, hm] at h
      refine ⟨ust, iter, rfl, rfl, ?_⟩
      by_cases hcap : ust.created_at + token.get_dmc_config s billinter_n default_bill_dmc_claims_interval ≤ now <;>
        [simp only [if_pos hcap] at h; simp only [if_neg hcap] at h] <;>
        (repeat' split at h) <;>
        first
          | exact Option.noConfusion h
          | (rw [Option.some.injEq, Prod.mk.injEq] at h
             obtain ⟨ht, hs⟩ := h
             subst ht
             subst hs
             refine ⟨by simp [hcap], rfl, rfl, rfl, rfl, rfl, rfl, rfl, rfl, rfl, rfl, rfl, ?_⟩
             first
               | exact ⟨0, le_refl 0, Or.inl rfl⟩
               | (rename_i h4
                  exact ⟨_, le_of_lt h4, Or.inr rfl⟩))

/-- An empty state, used as the base of the concrete example states. -/
def state0 : TokenState :=
  { bills := []
    makers := []
    pools := []
    pst_stats := []
    pst_supply := 0
    balances := fun _ _ => 0
    locked_balances := fun _ => 0
    orders := []
    challenges := []
    prices := []
    avg := none
    config := fun _ => none }

/-- Claim C10: for every unbill(owner, bill_id, memo) call where the
referenced bill exists but the owner has no maker record in the maker
table, the call aborts (because bonus accrual looks up the owner's maker
pool unconditionally), so a bill owner who never bootstrapped a stake pool
cannot cancel their bill. -/
theorem C10_unbill_aborts_without_maker (s : TokenState) (owner : AccountName)
    (bill_id memo_size now : ℕ) (b : Bill)
    (hb : findBillById (billsOf s owner) bill_id = some b)
    (hm : findMaker s.makers owner = none) :
    token.unbill s owner bill_id memo_size now = none := by
  unfold token.unbill token.calbonus
  simp [hb, hm]

/-- The bill of the C10 witness state. -/
def billW10 : Bill :=
  { primary := 0, bill_id := 7, owner := 4, unmatched := 5, matched := 0,
    price := 2 ^ 32, created_at := 0, updated_at := 0, expire_on := 100, deposit_ratio := 0 }

/-- The C10 witness state: account 4 owns a bill but has no maker row. -/
def stateW10 : TokenState := { state0 with bills := [(4, [billW10])] }

theorem C10_unbill_aborts_without_maker_witness :
    findBillById (billsOf stateW10 4) 7 = some billW10 ∧
    findMaker stateW10.makers 4 = none ∧
    token.unbill stateW10 4 7 0 0 = none := by
  have hb : findBillById (billsOf stateW10 4) 7 = some billW10 := by rfl
  have hm : findMaker stateW10.makers 4 = none := by rfl
  exact ⟨hb, hm, C10_unbill_aborts_without_maker stateW10 4 7 0 0 billW10 hb hm⟩

/-- The bonus-accrual step as the source performs it at every surviving
call site (dmc.cpp lines 93-98 and 448-453): calbonus followed by the
caller storing the returned capped timestamp into the bill's updated_at.
(The call sites also adjust unmatched in the same modify; the timestamp
write is the part that belongs to the accrual contract.) -/
def calbonus_touch (s : TokenState) (owner : AccountName) (bill_id now : ℕ) :
    Option TokenState :=
  (token.calbonus s owner bill_id now).map (fun p =>
    let newBills :=
      modifyBillById (fun b => { b with updated_at := p.1 }) (billsOf p.2 owner) bill_id
    { p.2 with bills := setScope p.2.bills owner newBills })

/-- billsOf after an in-place rewrite of the owner's scope. -/
theorem billsOf_update (s' : TokenState) (o : AccountName) (L : List Bill) :
    billsOf { s' with bills := setScope s'.bills o L } o = L := by
  simp [billsOf, scopeOf_setScope_self]

/-- calbonus is a no-op (and returns its own capped timestamp again) on any
state whose bill already carries the capped timestamp in updated_at. -/
theorem calbonus_noop (s1 : TokenState) (owner : AccountName) (bill_id now : ℕ)
    (ust : Bill) (mk : Maker) (t I : ℕ)
    (hfb : findBillById (billsOf s1 owner) bill_id = some ust)
    (hfm : findMaker s1.makers owner = some mk)
    (hI : token.get_dmc_config s1 billinter_n default_bill_dmc_claims_interval = I)
    (htcap : t = if ust.created_at + I ≤ now then ust.created_at + I else now)
    (hupd : ust.updated_at = t) :
    token.calbonus s1 owner bill_id now = some (t, s1) := by
  have hle : t ≤ ust.created_at + I := by
    rw [htcap]
    split <;> omega
  unfold token.calbonus
  simp only [hfb, hfm, hI, ← htcap, hupd]
  rw [if_pos hle]
  have h64 : t + 2 ^ 64 - t = 2 ^ 64 := by omega
  rw [h64, Nat.mod_self]
  simp

/-- Claim C9: for every bill and maker, after one bonus-accrual step (which
per the source's call-site contract stores the returned capped timestamp in
the bill), calling calbonus again back-to-back with zero elapsed time
returns the state unchanged, so the maker's total_staked changes by zero on
the second call. -/
theorem C9_second_accrual_is_noop (s s1 : TokenState) (owner : AccountName)
    (bill_id now : ℕ)
    (h : calbonus_touch s owner bill_id now = some s1) :
    ∃ t, token.calbonus s1 owner bill_id now = some (t, s1) := by
  unfold calbonus_touch at h
  cases hcb : token.calbonus s owner bill_id now with
  | none => rw [hcb] at h; cases h
  | some p =>
    obtain ⟨t0, s'⟩ := p
    rw [hcb] at h
    simp only [Option.map_some', Option.some.injEq] at h
    obtain ⟨ust, iter, hfb0, hfm0, ht0, hbills, hpools, hpst, hsupply, hbal, hlock,
      hord, hch, hpr, havg, hcfg, dq, hdq, hmkor⟩ :=
      calbonus_spec s s' owner bill_id now t0 hcb
    subst h
    refine ⟨t0, ?_⟩
    set L := modifyBillById (fun b => { b with updated_at := t0 }) (billsOf s' owner) bill_id with hL
    have e1 : billsOf s' owner = billsOf s owner := by
      simp [billsOf, hbills]
    have e2 : findBillById L bill_id = some { ust with updated_at := t0 } := by
      rw [hL, e1, findBillById_modifyBillById (fun b => { b with updated_at := t0 })
        (billsOf s owner) bill_id (fun b => rfl), hfb0]
      rfl
    have hfb1 : findBillById (billsOf { s' with bills := setScope s'.bills owner L } owner)
        bill_id = some { ust with updated_at := t0 } := by
      rw [billsOf_update]
      exact e2
    have hIeq : token.get_dmc_config s' billinter_n default_bill_dmc_claims_interval =
        token.get_dmc_config s billinter_n default_bill_dmc_claims_interval := by
      unfold token.get_dmc_config
      rw [hcfg]
    rcases hmkor with hmk | hmk
    · refine calbonus_noop _ owner bill_id now { ust with updated_at := t0 } iter t0 _ hfb1 ?_ hIeq ht0 rfl
      show findMaker s'.makers owner = some iter
      rw [hmk]
      exact hfm0
    · refine calbonus_noop _ owner bill_id now { ust with updated_at := t0 }
        { iter with total_staked := iter.total_staked + dq } t0 _ hfb1 ?_ hIeq ht0 rfl
      show findMaker s'.makers owner = some _
      rw [hmk]
      exact findMaker_setMaker_self s.makers owner iter _ hfm0 (findMaker_miner s.makers owner iter hfm0)

/-- The bill of the C9 witness state. -/
def billW9 : Bill :=
  { primary := 0, bill_id := 7, owner := 2, unmatched := 50, matched := 0,
    price := 2 ^ 32, created_at := 0, updated_at := 0, expire_on := 1000000000, deposit_ratio := 0 }

/-- The maker of the C9 witness state. -/
def makerW9 : Maker :=
  { miner := 2, current_rate := 5, miner_rate := 1, total_weight := 10000,
    total_staked := 10, benchmark_stake_rate := 200, rate_updated_at := 0 }

/-- The C9 witness state: a maker with one bill, and a benchmark-rate
configuration large enough that the first accrual is nonzero. -/
def stateW9 : TokenState :=
  { state0 with bills := [(2, [billW9])], makers := [makerW9],
                config := fun k => if k = bmrate_n then some 10000000000 else none }

/-- The C9 witness state after one accrual step at time 100: the bonus
(floor(0.1 * 100000000 / 5184000) = 1 unit-rate, times duration 100, times
unmatched 50, valued at the initial price 1 = 5000) went to the stake, and
the bill's updated_at advanced to 100. -/
def stateW9' : TokenState :=
  { stateW9 with bills := [(2, [{ billW9 with updated_at := 100 }])],
                 makers := [{ makerW9 with total_staked := 5010 }] }

theorem C9_second_accrual_is_noop_witness :
    calbonus_touch stateW9 2 7 100 = some stateW9' ∧
    ∃ t, token.calbonus stateW9' 2 7 100 = some (t, stateW9') := by
  have h : calbonus_touch stateW9 2 7 100 = some stateW9' := by
    norm_num [calbonus_touch, token.calbonus, billsOf, scopeOf, findBillById, findMaker,
      token.get_dmc_config, get_asset_by_amount_floor, incentive_rate, token.get_dmc_by_vrsi,
      token.oracle_price, get_real_asset, default_bill_dmc_claims_interval,
      default_benchmark_stake_rate, default_initial_price, setMaker, setScope, modifyBillById,
      Option.map, stateW9, stateW9', state0, billW9, makerW9,
      billinter_n, bmrate_n, initalprice_n]
  exact ⟨h, C9_second_accrual_is_noop stateW9 stateW9' 2 7 100 h⟩

/-- Claim C7: mint(maker, amount) succeeds only if the already-minted
amount plus amount is at most floor(valued(total_staked) /
benchmark_stake_rate), and after a successful mint the recomputed
current_rate is at least the valued benchmark; a failed post-mint rate
check aborts with no effect (which the Option embedding renders as the
call returning none and no successor state existing). -/
theorem C7_mint_cap_and_rate (s s' : TokenState) (owner : AccountName) (amount : ℤ)
    (h : token.mint s owner amount = some s') :
    ∃ iter, findMaker s.makers owner = some iter ∧
      amount + (pstAmountOf s owner).getD 0 ≤
        ⌊get_real_asset iter.total_staked / token.get_dmc_rate s iter.benchmark_stake_rate⌋ ∧
      ∃ iter', findMaker s'.makers owner = some iter' ∧
        token.get_dmc_rate s iter.benchmark_stake_rate ≤ iter'.current_rate := by
  unfold token.mint at h
  split at h
  · cases hm : findMaker s.makers owner with
    | none => rw [hm] at h; cases h
    | some iter =>
      simp only [hm] at h
      split at h
      · split at h
        · rename_i hcap hrate
          rw [Option.some.injEq] at h
          subst h
          refine ⟨iter, rfl, hcap, ?_⟩
          refine ⟨_, findMaker_setMaker_self s.makers owner iter _ hm ?_, hrate⟩
          exact findMaker_miner s.makers owner iter hm
        · cases h
      · cases h
  · cases h

/-- The maker of the C7 witness state. -/
def makerW7 : Maker :=
  { miner := 2, current_rate := 5, miner_rate := 1, total_weight := 10000,
    total_staked := 10, benchmark_stake_rate := 200, rate_updated_at := 0 }

/-- The C7 witness state: one maker with stake 10, one minted PST. -/
def stateW7 : TokenState := { state0 with makers := [makerW7], pst_stats := [(2, 1)] }

/-- The C7 witness state after mint(2, 1): supply and balance credited,
minted stats at 2, current_rate recomputed to 10/2 = 5. -/
def stateW7' : TokenState :=
  { stateW7 with pst_supply := 1, balances := setBal state0.balances 2 Sym.pst 1,
                 pst_stats := [(2, 2)], makers := [{ makerW7 with current_rate := 5 }] }

theorem C7_mint_cap_and_rate_witness :
    token.mint stateW7 2 1 = some stateW7' ∧
    (∃ iter, findMaker stateW7.makers 2 = some iter ∧
      1 + (pstAmountOf stateW7 2).getD 0 ≤
        ⌊get_real_asset iter.total_staked / token.get_dmc_rate stateW7 iter.benchmark_stake_rate⌋ ∧
      ∃ iter', findMaker stateW7'.makers 2 = some iter' ∧
        token.get_dmc_rate stateW7 iter.benchmark_stake_rate ≤ iter'.current_rate) := by
  have h : token.mint stateW7 2 1 = some stateW7' := by
    norm_num [token.mint, findMaker, token.get_dmc_rate, token.oracle_price,
      token.get_dmc_config, get_real_asset, pstAmountOf, scopeOf, add_stats, add_balance,
      change_pst, token.cal_current_rate, setMaker, setScope, setBal,
      default_initial_price, initalprice_n, stateW7, stateW7', state0, makerW7]
  exact ⟨h, C7_mint_cap_and_rate stateW7 stateW7' 2 1 h⟩

/-- The payment token::order requires (dmc.cpp lines 84-86): the ceiling of
the decoded fixed-point price times the ordered amount. -/
def order_payment (b : Bill) (amount : ℤ) : ℤ :=
  get_asset_by_amount_ceil ((b.price : ℚ) / 2 ^ 32 * (amount : ℚ))

/-- The deposit token::order requires (dmc.cpp line 89): the payment times
the bill's (integer) deposit ratio; std::round of the integer product is
the product itself. -/
def order_deposit (b : Bill) (amount : ℤ) : ℤ :=
  order_payment b amount * (b.deposit_ratio : ℤ)

/-- The price-oracle recorder leaves the bill tables untouched. -/
theorem billsOf_trace (s : TokenState) (p : ℚ) (i now : ℕ) (o : AccountName) :
    billsOf (token.trace_price_history s p i now) o = billsOf s o := rfl

/-- billsOf on an explicitly built state. -/
theorem billsOf_mk (bl : List (AccountName × List Bill)) (mk : List Maker)
    (pl : List (AccountName × List PoolShare)) (ps : List (AccountName × ℤ)) (sup : ℤ)
    (bal : AccountName → Sym → ℤ) (lk : AccountName → ℤ) (od : List DmcOrder)
    (ch : List DmcChallenge) (pr : List PriceSample) (av : Option AvgRow)
    (cf : ℕ → Option ℕ) (o : AccountName) :
    billsOf (TokenState.mk bl mk pl ps sup bal lk od ch pr av cf) o = (scopeOf bl o).getD [] :=
  rfl

/-- The price-oracle recorder leaves the maker table untouched. -/
theorem makers_trace (s : TokenState) (p : ℚ) (i now : ℕ) :
    (token.trace_price_history s p i now).makers = s.makers := rfl

/-- The maker table of an explicitly built state. -/
theorem makers_mk (bl : List (AccountName × List Bill)) (mk : List Maker)
    (pl : List (AccountName × List PoolShare)) (ps : List (AccountName × ℤ)) (sup : ℤ)
    (bal : AccountName → Sym → ℤ) (lk : AccountName → ℤ) (od : List DmcOrder)
    (ch : List DmcChallenge) (pr : List PriceSample) (av : Option AvgRow)
    (cf : ℕ → Option ℕ) :
    (TokenState.mk bl mk pl ps sup bal lk od ch pr av cf).makers = mk := rfl

/-- The rate-bookkeeping formula of token::order depends on the state only
through the minted stats. -/
theorem rate_formula_congr (sa sb : TokenState) (h : sa.pst_stats = sb.pst_stats)
    (stk pay : ℤ) (o : AccountName) :
    token.cal_current_rate sa
        (get_real_asset (stk - truncQ ((pay : ℚ) *
          token.cal_current_rate sa (get_real_asset stk) o))) o =
      token.cal_current_rate sb
        (get_real_asset (stk - truncQ ((pay : ℚ) *
          token.cal_current_rate sb (get_real_asset stk) o))) o := by
  rw [cal_current_rate_congr sa sb _ o h, cal_current_rate_congr sa sb _ o h]

/-- What a successful order guarantees, shared by the C1 and C5 theorems:
the bill exists and covers the amount, the pledge covers payment plus
deposit, the bill moves amount from unmatched to matched, and the seller's
maker row keeps its total_staked except for the nonnegative calbonus
accrual dq while current_rate is recomputed against the stake minus the
truncated payment-times-rate lock. -/
theorem order_spec (s s' : TokenState) (owner miner : AccountName) (bill_id : ℕ)
    (amount reserve : ℤ) (memo_size deposit_valid now digest_id : ℕ)
    (h : token.order s owner miner bill_id amount reserve memo_size deposit_valid now
      digest_id = some s') :
    ∃ b b' iter0 m' dq,
      findBillById (billsOf s miner) bill_id = some b ∧
      amount ≤ b.unmatched ∧
      order_payment b amount + order_deposit b amount ≤ reserve ∧
      findBillById (billsOf s' miner) bill_id = some b' ∧
      b'.unmatched = b.unmatched - amount ∧
      b'.matched = b.matched + amount ∧
      findMaker s.makers miner = some iter0 ∧
      findMaker s'.makers miner = some m' ∧
      m'.total_staked = iter0.total_staked + dq ∧
      0 ≤ dq ∧
      m'.current_rate =
        token.cal_current_rate s
          (get_real_asset (m'.total_staked -
            truncQ ((order_payment b amount : ℚ) *
              token.cal_current_rate s (get_real_asset m'.total_staked) miner))) miner := by
  unfold token.order at h
  split at h
  · cases hb : findBillById (billsOf s miner) bill_id with
    | none => rw [hb] at h; cases h
    | some ust =>
      simp only [hb] at h
      split at h
      · rename_i hcond2
        split at h
        · rename_i hpay
          cases hsb : sub_balance s owner Sym.dmc reserve with
          | none => rw [hsb] at h; cases h
          | some s1 =>
            simp only [hsb] at h
            obtain ⟨hres, hs1⟩ := sub_balance_spec s s1 owner Sym.dmc reserve hsb
            cases hcb : token.calbonus s1 miner bill_id now with
            | none => rw [hcb] at h; cases h
            | some p =>
              obtain ⟨t, s2⟩ := p
              simp only [hcb] at h
              obtain ⟨ust1, iter1, hfb1, hfm1, ht1, hbills2, hpools2, hpst2, hsup2,
                hbal2, hlock2, hord2, hch2, hpr2, havg2, hcfg2, dq, hdq, hmkor⟩ :=
                calbonus_spec s1 s2 miner bill_id now t hcb
              have hfm0 : findMaker s.makers miner = some iter1 := by
                rw [← hfm1, hs1]
              have hminer1 : iter1.miner = miner := findMaker_miner _ _ _ hfm0
              have hbsame : billsOf s2 miner = billsOf s miner := by
                rw [billsOf, hbills2, hs1]
                simp [billsOf]
              cases hm3 : findMaker s2.makers miner with
              | none => rw [hm3] at h; cases h
              | some maker_iter =>
                simp only [hm3] at h
                rw [Option.some.injEq] at h
                subst h
                have hstep : maker_iter.total_staked = iter1.total_staked + dq ∨
                    maker_iter.total_staked = iter1.total_staked := by
                  rcases hmkor with hmk | hmk
                  · right
                    rw [hmk, hs1] at hm3
                    simp only at hm3
                    rw [hfm0] at hm3
                    cases hm3
                    rfl
                  · left
                    rw [hmk] at hm3
                    have := findMaker_setMaker_self s1.makers miner iter1
                      { iter1 with total_staked := iter1.total_staked + dq }
                      (by rw [hs1]; exact hfm0) hminer1
                    rw [this] at hm3
                    cases hm3
                    rfl
                have hmm : maker_iter.miner = miner := findMaker_miner _ _ _ hm3
                have hpstS : s2.pst_stats = s.pst_stats := by rw [hpst2, hs1]
                obtain ⟨dq', hqq, hstake⟩ : ∃ dq', maker_iter.total_staked = iter1.total_staked + dq' ∧ 0 ≤ dq' := by
                  rcases hstep with hstake | hstake
                  · exact ⟨dq, hstake, hdq⟩
                  · exact ⟨0, by rw [hstake, add_zero], le_refl 0⟩
                refine ⟨ust, ?b2, iter1, ?m2, dq', ?g1, ?g2, ?g3, ?g4, ?g5, ?g6, hfm0,
                  ?g8, ?g9, ?g10, ?g11⟩
                case g1 => rfl
                case g2 => exact hcond2.1
                case g3 => exact hpay
                case g4 =>
                  rw [billsOf_trace, billsOf_mk, scopeOf_setScope_self, Option.getD_some, hbsame]
                  have hmod := findBillById_modifyBillById (fun b => { b with unmatched := b.unmatched - amount, matched := b.matched + amount, updated_at := t }) (billsOf s miner) bill_id (fun b => rfl)
                  rw [hmod, hb, Option.map_some']
                  exact rfl
                case g5 => rfl
                case g6 => rfl
                case g8 =>
                  rw [makers_trace, makers_mk]
                  refine findMaker_setMaker_self s2.makers miner maker_iter _ hm3 ?_
                  exact hmm
                case g9 => exact hqq
                case g10 => exact hstake
                case g11 =>
                  exact rate_formula_congr _ s hpstS maker_iter.total_staked
                    (order_payment ust amount) miner
        · cases h
      · cases h
  · cases h

/-- Ceiling via floor, used to evaluate ceilings numerically. -/
theorem ceil_eq_neg_floor_neg (q : ℚ) : ⌈q⌉ = -⌊-q⌋ := by
  conv_lhs => rw [← neg_neg q]
  rw [Int.ceil_neg]

/-- Claim C1 (amended): a successful order(buyer, seller, bill_id, amount,
pledge) against a bill with unmatched U and amount A ≤ U leaves the bill
with unmatched U - A and matched increased by A; the required payment is
ceil(price times A) (order_payment) and the required deposit is the payment
times the bill's integer deposit_ratio field (order_deposit, the source's
std::round of an integer product); the call succeeds only if the pledge
covers payment plus deposit.  (The spec's example deposit_ratio 0.1 is not
a representable input: the field is an unsigned integer.) -/
theorem C1_order_escrow_and_matching (s : TokenState) (owner miner : AccountName)
    (bill_id : ℕ) (amount reserve : ℤ) (memo_size deposit_valid now digest_id : ℕ)
    (b : Bill)
    (hb : findBillById (billsOf s miner) bill_id = some b)
    (h : (token.order s owner miner bill_id amount reserve memo_size deposit_valid now
      digest_id).isSome) :
    amount ≤ b.unmatched ∧
    order_payment b amount + order_deposit b amount ≤ reserve ∧
    (token.order s owner miner bill_id amount reserve memo_size deposit_valid now
        digest_id).map
        (fun t => (findBillById (billsOf t miner) bill_id).map
          (fun b' => (b'.unmatched, b'.matched))) =
      some (some (b.unmatched - amount, b.matched + amount)) := by
  rw [Option.isSome_iff_exists] at h
  obtain ⟨s', heq⟩ := h
  obtain ⟨b0, b', iter0, m', dq, hb0, hle, hpay, hfb', hunm, hmat, _, _, _, _, _⟩ :=
    order_spec s s' owner miner bill_id amount reserve memo_size deposit_valid now
      digest_id heq
  rw [hb0] at hb
  cases hb
  refine ⟨hle, hpay, ?_⟩
  rw [heq, Option.map_some', hfb', Option.map_some', hunm, hmat]

/-- The bill of the C1 counterexample: price 2.5 encoded as 32.32
fixed-point, amount 100 ordered. -/
def billX1 (d : ℕ) : Bill :=
  { primary := 0, bill_id := 1, owner := 2, unmatched := 100, matched := 0,
    price := 10737418240, created_at := 0, updated_at := 0, expire_on := 10, deposit_ratio := d }

/-- Claim C1 as frozen is false: at price 2.5 and amount 100 the payment is
250, and no representable deposit_ratio (an unsigned integer) produces the
claimed deposit 25 = round(250 times 0.1), because the deposit is the
payment times an integer. -/
theorem C1_counterexample :
    order_payment (billX1 0) 100 = 250 ∧
    ∀ d : ℕ, order_deposit (billX1 d) 100 ≠ 25 := by
  have hpay : ∀ d : ℕ, order_payment (billX1 d) 100 = 250 := by
    intro d
    norm_num [order_payment, billX1, get_asset_by_amount_ceil, ceil_eq_neg_floor_neg]
  refine ⟨hpay 0, ?_⟩
  intro d
  rw [order_deposit, hpay d]
  intro hcontra
  have : (250 : ℤ) * (d : ℤ) = 25 := by
    simpa [billX1] using hcontra
  omega

/-- The bill of the C1 witness state. -/
def billWC1 : Bill :=
  { primary := 0, bill_id := 77, owner := 2, unmatched := 150, matched := 0,
    price := 10737418240, created_at := 1000, updated_at := 1000, expire_on := 5000,
    deposit_ratio := 1 }

/-- The maker of the C1 witness state. -/
def makerWC1 : Maker :=
  { miner := 2, current_rate := 10 / 3, miner_rate := 1, total_weight := 10000,
    total_staked := 10, benchmark_stake_rate := 200, rate_updated_at := 0 }

/-- The C1 witness state: maker 2 sells via bill 77 at price 2.5; buyer 5
holds 1000 DMC. -/
def stateWC1 : TokenState :=
  { state0 with bills := [(2, [billWC1])], makers := [makerWC1],
                pst_stats := [(2, 3)],
                balances := setBal state0.balances 5 Sym.dmc 1000,
                config := fun k => if k = ordsrvepoch_n then some 10 else none }

theorem C1_order_escrow_and_matching_witness :
    findBillById (billsOf stateWC1 2) 77 = some billWC1 ∧
    (token.order stateWC1 5 2 77 100 600 0 2000 1000 900).isSome = true ∧
    (100 ≤ billWC1.unmatched ∧
      order_payment billWC1 100 + order_deposit billWC1 100 ≤ 600 ∧
      (token.order stateWC1 5 2 77 100 600 0 2000 1000 900).map
          (fun t => (findBillById (billsOf t 2) 77).map
            (fun b' => (b'.unmatched, b'.matched))) =
        some (some (billWC1.unmatched - 100, billWC1.matched + 100))) := by
  have hb : findBillById (billsOf stateWC1 2) 77 = some billWC1 := by rfl
  have h : (token.order stateWC1 5 2 77 100 600 0 2000 1000 900).isSome = true := by
    norm_num [token.order, token.calbonus, token.trace_price_history, token.get_dmc_config,
      token.cal_current_rate, token.get_dmc_by_vrsi, token.oracle_price, billsOf, scopeOf,
      findBillById, findMaker, setMaker, setScope, modifyBillById, pstAmountOf, sub_balance,
      setBal, get_real_asset, get_asset_by_amount_ceil, get_asset_by_amount_floor,
      ceil_eq_neg_floor_neg, truncQ, probeOrderId, orderIdTaken, sortByTime, insertSample,
      evict_loop, nextPricePrimary, incentive_rate, uint64_max,
      default_order_service_epoch, default_bill_dmc_claims_interval,
      default_benchmark_stake_rate, default_initial_price,
      ordsrvepoch_n, billinter_n, bmrate_n, initalprice_n,
      stateWC1, state0, billWC1, makerWC1]
  exact ⟨hb, h, C1_order_escrow_and_matching stateWC1 5 2 77 100 600 0 2000 1000 900
    billWC1 hb h⟩

/-- Claim C5 (amended): a successful order never debits the seller's
total_staked - it changes only by the nonnegative calbonus accrual dq -
and the maker's current_rate field is set to cal_current_rate applied to
the post-accrual stake minus the truncation of payment times the
recomputed current rate (the source truncates the double product into the
int64 asset amount). -/
theorem C5_order_rate_bookkeeping (s : TokenState) (owner miner : AccountName)
    (bill_id : ℕ) (amount reserve : ℤ) (memo_size deposit_valid now digest_id : ℕ)
    (b : Bill) (iter0 : Maker)
    (hb : findBillById (billsOf s miner) bill_id = some b)
    (hm : findMaker s.makers miner = some iter0)
    (h : (token.order s owner miner bill_id amount reserve memo_size deposit_valid now
      digest_id).isSome) :
    ∃ dq : ℤ, 0 ≤ dq ∧
      (token.order s owner miner bill_id amount reserve memo_size deposit_valid now
          digest_id).map
          (fun t => (findMaker t.makers miner).map
            (fun m' => (m'.total_staked, m'.current_rate))) =
        some (some (iter0.total_staked + dq,
          token.cal_current_rate s
            (get_real_asset (iter0.total_staked + dq -
              truncQ ((order_payment b amount : ℚ) *
                token.cal_current_rate s (get_real_asset (iter0.total_staked + dq)) miner)))
            miner)) := by
  rw [Option.isSome_iff_exists] at h
  obtain ⟨s', heq⟩ := h
  obtain ⟨b0, b', iter1, m', dq, hb0, hle, hpay, hfb', hunm, hmat, hm0, hfm', hstak,
    hdq, hrate⟩ :=
    order_spec s s' owner miner bill_id amount reserve memo_size deposit_valid now
      digest_id heq
  rw [hb0] at hb
  cases hb
  rw [hm0] at hm
  cases hm
  refine ⟨dq, hdq, ?_⟩
  rw [heq, Option.map_some', hfm', Option.map_some', hrate, hstak]

/-- The bill of the C5 counterexample state (price 1.0, no elapsed time so
no bonus accrues). -/
def billX5 : Bill :=
  { primary := 0, bill_id := 77, owner := 2, unmatched := 50, matched := 0,
    price := 2 ^ 32, created_at := 1000, updated_at := 1000, expire_on := 5000,
    deposit_ratio := 0 }

/-- The maker of the C5 counterexample state: stake 10, minted 3. -/
def makerX5 : Maker :=
  { miner := 2, current_rate := 10 / 3, miner_rate := 1, total_weight := 10000,
    total_staked := 10, benchmark_stake_rate := 200, rate_updated_at := 0 }

/-- The C5 counterexample state. -/
def stateX5 : TokenState :=
  { state0 with bills := [(2, [billX5])], makers := [makerX5],
                pst_stats := [(2, 3)],
                balances := setBal state0.balances 5 Sym.dmc 1000,
                config := fun k => if k = ordsrvepoch_n then some 10 else none }

/-- Claim C5 as frozen is false: with stake 10, minted 3 and payment 1 the
order sets current_rate to (10 - trunc(10/3))/3 = 7/3, not to
cal_current_rate(10 - 1 times 10/3) = 20/9 as the claim's untruncated
formula demands. -/
theorem C5_counterexample :
    (token.order stateX5 5 2 77 1 1000 0 2000 1000 900).map
        (fun t => (findMaker t.makers 2).map Maker.current_rate) = some (some (7 / 3)) ∧
    token.cal_current_rate stateX5 ((10 : ℚ) - 1 * token.cal_current_rate stateX5 10 2) 2 =
      20 / 9 ∧
    (7 / 3 : ℚ) ≠ 20 / 9 := by
  refine ⟨?_, ?_, by norm_num⟩
  · norm_num [token.order, token.calbonus, token.trace_price_history, token.get_dmc_config,
      token.cal_current_rate, token.get_dmc_by_vrsi, token.oracle_price, billsOf, scopeOf,
      findBillById, findMaker, setMaker, setScope, modifyBillById, pstAmountOf, sub_balance,
      setBal, get_real_asset, get_asset_by_amount_ceil, get_asset_by_amount_floor,
      ceil_eq_neg_floor_neg, truncQ, probeOrderId, orderIdTaken, sortByTime, insertSample,
      evict_loop, nextPricePrimary, incentive_rate, uint64_max,
      default_order_service_epoch, default_bill_dmc_claims_interval,
      default_benchmark_stake_rate, default_initial_price,
      ordsrvepoch_n, billinter_n, bmrate_n, initalprice_n,
      stateX5, state0, billX5, makerX5]
  · norm_num [token.cal_current_rate, pstAmountOf, scopeOf, stateX5, state0]

/-- The bill of the C5 witness state. -/
def billWC5 : Bill :=
  { primary := 0, bill_id := 78, owner := 3, unmatched := 50, matched := 0,
    price := 2 ^ 32, created_at := 1000, updated_at := 1000, expire_on := 5000,
    deposit_ratio := 0 }

/-- The maker of the C5 witness state. -/
def makerWC5 : Maker :=
  { miner := 3, current_rate := 10 / 3, miner_rate := 1, total_weight := 10000,
    total_staked := 10, benchmark_stake_rate := 200, rate_updated_at := 0 }

/-- The C5 witness state. -/
def stateWC5 : TokenState :=
  { state0 with bills := [(3, [billWC5])], makers := [makerWC5],
                pst_stats := [(3, 3)],
                balances := setBal state0.balances 5 Sym.dmc 1000,
                config := fun k => if k = ordsrvepoch_n then some 10 else none }

theorem C5_order_rate_bookkeeping_witness :
    findBillById (billsOf stateWC5 3) 78 = some billWC5 ∧
    findMaker stateWC5.makers 3 = some makerWC5 ∧
    (token.order stateWC5 5 3 78 1 1000 0 2000 1000 900).isSome = true ∧
    (∃ dq : ℤ, 0 ≤ dq ∧
      (token.order stateWC5 5 3 78 1 1000 0 2000 1000 900).map
          (fun t => (findMaker t.makers 3).map
            (fun m' => (m'.total_staked, m'.current_rate))) =
        some (some (makerWC5.total_staked + dq,
          token.cal_current_rate stateWC5
            (get_real_asset (makerWC5.total_staked + dq -
              truncQ ((order_payment billWC5 1 : ℚ) *
                token.cal_current_rate stateWC5
                  (get_real_asset (makerWC5.total_staked + dq)) 3))) 3))) := by
  have hb : findBillById (billsOf stateWC5 3) 78 = some billWC5 := by rfl
  have hm : findMaker stateWC5.makers 3 = some makerWC5 := by rfl
  have h : (token.order stateWC5 5 3 78 1 1000 0 2000 1000 900).isSome = true := by
    norm_num [token.order, token.calbonus, token.trace_price_history, token.get_dmc_config,
      token.cal_current_rate, token.get_dmc_by_vrsi, token.oracle_price, billsOf, scopeOf,
      findBillById, findMaker, setMaker, setScope, modifyBillById, pstAmountOf, sub_balance,
      setBal, get_real_asset, get_asset_by_amount_ceil, get_asset_by_amount_floor,
      ceil_eq_neg_floor_neg, truncQ, probeOrderId, orderIdTaken, sortByTime, insertSample,
      evict_loop, nextPricePrimary, incentive_rate, uint64_max,
      default_order_service_epoch, default_bill_dmc_claims_interval,
      default_benchmark_stake_rate, default_initial_price,
      ordsrvepoch_n, billinter_n, bmrate_n, initalprice_n,
      stateWC5, state0, billWC5, makerWC5]
  exact ⟨hb, hm, h, C5_order_rate_bookkeeping stateWC5 5 3 78 1 1000 0 2000 1000 900
    billWC5 makerWC5 hb hm h⟩

/-- The first (older) sample of the C4 failing input. -/
def sampleA : PriceSample := { primary := 0, bill_id := 1, price := 10, created_at := 0 }

/-- The second (surviving) sample of the C4 failing input. -/
def sampleB : PriceSample := { primary := 1, bill_id := 1, price := 20, created_at := 100 }

/-- The C4 failing input state: two samples with prices 10 and 20 and a
consistent aggregate (total 30, count 2, average 15). -/
def stateX4 : TokenState :=
  { state0 with prices := [sampleA, sampleB], avg := some { total := 30, count := 2, avg := 15 } }

/-- Claim C4 meets a code bug: at time 3700 (window 3600) only the price-10
sample expires, but the source decrements the running total by the price of
the sample FOLLOWING the erased iterator, leaving total 30 - 20 + 7 = 17
and average 17/2 although the remaining samples sum to 20 + 7 = 27 (the
claimed behaviour would leave total 27 and average 27/2). -/
theorem C4_trace_price_eval :
    ((token.trace_price_history stateX4 7 42 3700).avg.map AvgRow.total) = some 17 ∧
    (((token.trace_price_history stateX4 7 42 3700).prices.map PriceSample.price).sum = 27) ∧
    ((token.trace_price_history stateX4 7 42 3700).avg.map AvgRow.avg) = some (17 / 2) ∧
    (17 : ℚ) ≠ 27 := by
  refine ⟨?_, ?_, ?_, by norm_num⟩ <;>
    norm_num [token.trace_price_history, evict_loop, sortByTime, insertSample, timeLe,
      nextPricePrimary, price_fluncuation_interval, List.sum_cons, List.sum_nil,
      stateX4, state0, sampleA, sampleB]

/-- unbill on a state whose owner table ends with a freshly appended bill
created at the current instant refunds that bill's unmatched amount and
removes exactly that bill (the accrual inside is a no-op because no time
elapsed). -/
theorem unbill_of_fresh (s1 : TokenState) (owner : AccountName)
    (digest_id memo_size now : ℕ) (row : Bill) (base : List Bill) (mk1 : Maker)
    (hmemo : memo_size ≤ 256)
    (hbills : billsOf s1 owner = base ++ [row])
    (hrowid : row.bill_id = digest_id)
    (hfresh : findBillById base digest_id = none)
    (hmk : findMaker s1.makers owner = some mk1)
    (hcreated : row.created_at = now) (hupd : row.updated_at = now) :
    token.unbill s1 owner digest_id memo_size now =
      some (add_balance { s1 with bills := setScope s1.bills owner base }
        owner Sym.pst row.unmatched) := by
  have hfb : findBillById (billsOf s1 owner) digest_id = some row := by
    rw [hbills, findBillById_append _ _ _ hfresh]
    simp [findBillById, hrowid]
  have hcap : now = (if row.created_at + token.get_dmc_config s1 billinter_n
      default_bill_dmc_claims_interval ≤ now then
        row.created_at + token.get_dmc_config s1 billinter_n default_bill_dmc_claims_interval
      else now) := by
    rw [hcreated]
    split <;> omega
  have hcb := calbonus_noop s1 owner digest_id now row mk1 now
    (token.get_dmc_config s1 billinter_n default_bill_dmc_claims_interval)
    hfb hmk rfl hcap hupd
  unfold token.unbill
  rw [if_pos hmemo]
  simp only [hfb]
  rw [hcb, Option.map_some']
  rw [hbills, eraseBillById_append_last base row digest_id hfresh hrowid]

/-- Claim C8: creating a bill and immediately (same timestamp, no
intervening operation) cancelling it credits exactly the billed amount
back, leaving the owner's free PST balance equal to its value before the
bill call, and removes the Bill record.  The owner must have a maker row
(otherwise C10 applies) and the digest-derived id must be fresh. -/
theorem C8_bill_unbill_roundtrip (s : TokenState) (owner : AccountName) (amount : ℤ)
    (price : ℚ) (expire_on deposit_ratio memo_size now digest_id : ℕ)
    (hmemo : memo_size ≤ 256) (hp1 : (1 / 10000 : ℚ) ≤ price) (hp2 : price < 2 ^ 32)
    (hamt : 0 < amount)
    (hexp : now + token.get_dmc_config s serverinter_n default_service_interval ≤ expire_on)
    (hbal : amount ≤ s.balances owner Sym.pst)
    (mk : Maker) (hmk : findMaker s.makers owner = some mk)
    (hfresh : findBillById (billsOf s owner) digest_id = none) :
    ∃ s1 s2,
      token.bill s owner amount price expire_on deposit_ratio memo_size now digest_id =
        some s1 ∧
      token.unbill s1 owner digest_id memo_size now = some s2 ∧
      s2.balances owner Sym.pst = s.balances owner Sym.pst ∧
      findBillById (billsOf s2 owner) digest_id = none := by
  have hcond : memo_size ≤ 256 ∧ (1 / 10000 : ℚ) ≤ price ∧ price < 2 ^ 32 ∧ 0 < amount ∧
      now + token.get_dmc_config s serverinter_n default_service_interval ≤ expire_on :=
    ⟨hmemo, hp1, hp2, hamt, hexp⟩
  have hsb : sub_balance s owner Sym.pst amount =
      some { s with balances := setBal s.balances owner Sym.pst (s.balances owner Sym.pst - amount) } := by
    unfold sub_balance
    rw [if_pos hbal]
  refine ⟨?_, ?_, ?hb, ?hu, ?hbeq, ?hfr⟩
  case hb =>
    unfold token.bill
    rw [if_pos hcond, hsb, Option.map_some']
    exact rfl
  case hu =>
    refine unbill_of_fresh _ owner digest_id memo_size now ?row (billsOf s owner) mk hmemo
      ?hba ?hri hfresh ?hmm2 ?hcr ?hud
    case hba =>
      simp only [billsOf, scopeOf_setScope_self, Option.getD_some]
      exact rfl
    case hri => exact rfl
    case hmm2 => exact hmk
    case hcr => exact rfl
    case hud => exact rfl
  case hbeq =>
    simp [add_balance, setBal]
  case hfr =>
    simp only [add_balance, billsOf, scopeOf_setScope_self, Option.getD_some]
    simpa [billsOf] using hfresh

/-- The maker of the C8 witness state. -/
def makerW8 : Maker :=
  { miner := 2, current_rate := 5, miner_rate := 1, total_weight := 10000,
    total_staked := 10, benchmark_stake_rate := 200, rate_updated_at := 0 }

/-- The C8 witness state: account 2 has a maker row and 40 PST. -/
def stateW8 : TokenState :=
  { state0 with makers := [makerW8], pst_stats := [(2, 3)],
                balances := setBal state0.balances 2 Sym.pst 40,
                config := fun k => if k = serverinter_n then some 100 else none }

theorem C8_bill_unbill_roundtrip_witness :
    (1 / 10000 : ℚ) ≤ 5 / 2 ∧ (5 / 2 : ℚ) < 2 ^ 32 ∧ (0 : ℤ) < 40 ∧
    1000 + token.get_dmc_config stateW8 serverinter_n default_service_interval ≤ 2000 ∧
    (40 : ℤ) ≤ stateW8.balances 2 Sym.pst ∧
    findMaker stateW8.makers 2 = some makerW8 ∧
    findBillById (billsOf stateW8 2) 88 = none ∧
    (∃ s1 s2, token.bill stateW8 2 40 (5 / 2) 2000 0 0 1000 88 = some s1 ∧
      token.unbill s1 2 88 0 1000 = some s2 ∧
      s2.balances 2 Sym.pst = stateW8.balances 2 Sym.pst ∧
      findBillById (billsOf s2 2) 88 = none) := by
  have h1 : (1 / 10000 : ℚ) ≤ 5 / 2 := by norm_num
  have h2 : (5 / 2 : ℚ) < 2 ^ 32 := by norm_num
  have h3 : (0 : ℤ) < 40 := by norm_num
  have h4 : 1000 + token.get_dmc_config stateW8 serverinter_n default_service_interval ≤ 2000 := by
    norm_num [token.get_dmc_config, stateW8, state0, serverinter_n]
  have h5 : (40 : ℤ) ≤ stateW8.balances 2 Sym.pst := by
    norm_num [stateW8, state0, setBal]
  have h6 : findMaker stateW8.makers 2 = some makerW8 := by rfl
  have h7 : findBillById (billsOf stateW8 2) 88 = none := by rfl
  exact ⟨h1, h2, h3, h4, h5, h6, h7,
    C8_bill_unbill_roundtrip stateW8 2 40 (5 / 2) 2000 0 0 1000 88 (by norm_num)
      h1 h2 h3 h4 h5 makerW8 h6 h7⟩

/-- Claim C6: when a maker's pool holds exactly two depositors, a
successful redemption(depositor, rate 1, maker) by one of them removes
that depositor's PoolShare and leaves the remaining depositor's weight
equal to the maker's entire total_weight.  The weight-positivity and
sum hypotheses are the pool invariant (claim C2). -/
theorem C6_redemption_two_depositors (s s' : TokenState) (owner other miner : AccountName)
    (mk : Maker) (wa wb : ℚ)
    (hm : findMaker s.makers miner = some mk)
    (hpool : poolOf s miner = [{ owner := owner, weight := wa }, { owner := other, weight := wb }] ∨
             poolOf s miner = [{ owner := other, weight := wb }, { owner := owner, weight := wa }])
    (hne : owner ≠ other)
    (hwa : 0 < wa) (hwb : 0 < wb) (hsum : mk.total_weight = wa + wb)
    (h : token.redemption s owner 1 miner = some s') :
    poolOf s' miner = [{ owner := other, weight := wb }] ∧
    ∃ mk', findMaker s'.makers miner = some mk' ∧ mk'.total_weight = wb := by
  have hfs : findShare (poolOf s miner) owner = some { owner := owner, weight := wa } := by
    rcases hpool with hp | hp <;> simp [hp, findShare, Ne.symm hne]
  have her : eraseShare (poolOf s miner) owner = [{ owner := other, weight := wb }] := by
    rcases hpool with hp | hp <;> simp [hp, eraseShare, Ne.symm hne]
  have harith : ∀ S : ℤ, 0 < ⌊(S : ℚ) * (wa * 1 / mk.total_weight)⌋ →
      S - ⌊(S : ℚ) * (wa * 1 / mk.total_weight)⌋ = 0 → False := by
    intro S hpos hzero
    have hrho1 : wa * 1 / mk.total_weight < 1 := by
      rw [mul_one, hsum, div_lt_one (by linarith)]
      linarith
    have hrho0 : 0 < wa * 1 / mk.total_weight := by
      rw [mul_one, hsum]
      positivity
    have hS : 0 < (S : ℚ) := by
      by_contra hcon
      push_neg at hcon
      have : (S : ℚ) * (wa * 1 / mk.total_weight) ≤ 0 :=
        mul_nonpos_of_nonpos_of_nonneg hcon hrho0.le
      have : ⌊(S : ℚ) * (wa * 1 / mk.total_weight)⌋ ≤ 0 := by
        exact Int.floor_nonpos this
      omega
    have hlt : ⌊(S : ℚ) * (wa * 1 / mk.total_weight)⌋ < S := by
      rw [Int.floor_lt]
      calc (S : ℚ) * (wa * 1 / mk.total_weight) < (S : ℚ) * 1 := by
            exact mul_lt_mul_of_pos_left hrho1 hS
        _ = (S : ℚ) := mul_one _
    omega
  unfold token.redemption at h
  rw [if_pos (by norm_num : (0 : ℚ) < 1 ∧ (1 : ℚ) ≤ 1)] at h
  simp only [hm, hfs, her, eq_self_iff_true, ite_true] at h
  have hkey : ∀ hdust : 0 < ⌊(mk.total_staked : ℚ) * (wa * 1 / mk.total_weight)⌋,
      mk.total_staked - ⌊(mk.total_staked : ℚ) * (wa * 1 / mk.total_weight)⌋ ≠ 0 :=
    fun hdust hz => harith mk.total_staked hdust hz
  by_cases hmo : miner = owner
  · have hfsm : findShare [{ owner := other, weight := wb }] owner = none := by
      simp [findShare, Ne.symm hne]
    simp only [hmo, hfsm, eq_self_iff_true, ite_true] at h
    split at h
    · exact Option.noConfusion h
    · rename_i val heq
      split at heq
      · split at heq
        · rename_i hz
          split at heq
          · split at h
            · rename_i hdust
              exact absurd hz (hkey hdust)
            · exact Option.noConfusion h
          · exact Option.noConfusion heq
        · exact Option.noConfusion heq
      · exact Option.noConfusion heq
  · simp only [if_neg hmo] at h
    split at h
    · rename_i hdust
      split at h
      · rename_i hz
        exact absurd hz (hkey hdust)
      · rename_i hz
        split at h
        · rw [Option.some.injEq] at h
          subst h
          constructor
          · simp [poolOf, lock_add_balance, scopeOf_setScope_self]
          · refine ⟨_, findMaker_setMaker_self s.makers miner mk _ hm ?_, rfl⟩
            exact findMaker_miner s.makers miner mk hm
        · exact Option.noConfusion h
    · exact Option.noConfusion h

/-- The maker of the C6 witness state. -/
def makerW6 : Maker :=
  { miner := 2, current_rate := 10 / 3, miner_rate := 1 / 5, total_weight := 10000,
    total_staked := 10, benchmark_stake_rate := 200, rate_updated_at := 0 }

/-- The C6 witness state: maker 2 with two depositors (itself with weight
6000 and account 9 with weight 4000). -/
def stateW6 : TokenState :=
  { state0 with makers := [makerW6],
                pools := [(2, [{ owner := 2, weight := 6000 }, { owner := 9, weight := 4000 }])],
                pst_stats := [(2, 3)] }

/-- The C6 witness state after redemption(9, rate 1, maker 2): the share of
9 is gone, floor(10 * 4000/10000) = 4 DMC is time-locked for 9, and the
maker keeps stake 6 with total_weight 6000 (the remaining share). -/
def stateW6' : TokenState :=
  { stateW6 with pools := [(2, [{ owner := 2, weight := 6000 }])],
                 locked_balances := fun n => if n = 9 then 4 else 0,
                 makers := [{ makerW6 with current_rate := 2, total_weight := 6000, total_staked := 6 }] }

theorem C6_redemption_two_depositors_witness :
    findMaker stateW6.makers 2 = some makerW6 ∧
    poolOf stateW6 2 = [{ owner := 2, weight := 6000 }, { owner := 9, weight := 4000 }] ∧
    (9 : ℕ) ≠ 2 ∧ (0 : ℚ) < 4000 ∧ (0 : ℚ) < 6000 ∧ makerW6.total_weight = 4000 + 6000 ∧
    token.redemption stateW6 9 1 2 = some stateW6' ∧
    (poolOf stateW6' 2 = [{ owner := 2, weight := 6000 }] ∧
      ∃ mk', findMaker stateW6'.makers 2 = some mk' ∧ mk'.total_weight = 6000) := by
  have hm : findMaker stateW6.makers 2 = some makerW6 := by rfl
  have hp : poolOf stateW6 2 = [{ owner := 2, weight := 6000 }, { owner := 9, weight := 4000 }] := by rfl
  have hne : (9 : ℕ) ≠ 2 := by decide
  have hwa : (0 : ℚ) < 4000 := by norm_num
  have hwb : (0 : ℚ) < 6000 := by norm_num
  have hsum : makerW6.total_weight = 4000 + 6000 := by norm_num [makerW6]
  have h : token.redemption stateW6 9 1 2 = some stateW6' := by
    norm_num [token.redemption, findMaker, findShare, eraseShare, modifyShare, poolOf,
      scopeOf, setScope, setMaker, eraseMaker, token.get_dmc_rate, token.oracle_price,
      token.get_dmc_config, token.cal_current_rate, pstAmountOf, get_real_asset,
      lock_add_balance, uint64_max, default_initial_price, initalprice_n,
      stateW6, stateW6', state0, makerW6]
  exact ⟨hm, hp, hne, hwa, hwb, hsum, h,
    C6_redemption_two_depositors stateW6 stateW6' 9 2 2 makerW6 4000 6000 hm
      (Or.inr hp) hne hwa hwb hsum h⟩

/-! Auxiliary lemmas for the pool-invariant proofs. -/

/-- Total weight held in a share list. -/
def poolSum (ps : List PoolShare) : ℚ := (ps.map PoolShare.weight).sum

theorem findMaker_none_mem (ms : List Maker) (o : AccountName)
    (h : findMaker ms o = none) : ∀ mk ∈ ms, mk.miner ≠ o := by
  induction ms with
  | nil => intro mk hmk; cases hmk
  | cons hd tl ih =>
    intro mk hmk
    by_cases hh : hd.miner = o
    · simp [findMaker, hh] at h
    · simp only [findMaker, if_neg hh] at h
      rcases List.mem_cons.mp hmk with rfl | hmk
      · exact hh
      · exact ih h mk hmk

theorem findMaker_append_none (ms : List Maker) (mk : Maker) (o : AccountName)
    (h : findMaker ms o = none) :
    findMaker (ms ++ [mk]) o = if mk.miner = o then some mk else none := by
  induction ms with
  | nil => simp [findMaker]
  | cons hd tl ih =>
    by_cases hh : hd.miner = o
    · simp [findMaker, hh] at h
    · simp only [findMaker, if_neg hh] at h
      simp [findMaker, hh, ih h]

theorem mem_setMaker (ms : List Maker) (m' x : Maker) (hx : x ∈ setMaker ms m') :
    x = m' ∨ x ∈ ms := by
  induction ms with
  | nil => simp [setMaker] at hx
  | cons hd tl ih =>
    by_cases hh : hd.miner = m'.miner
    · simp only [setMaker, if_pos hh] at hx
      rcases List.mem_cons.mp hx with rfl | hx
      · exact Or.inl rfl
      · exact Or.inr (List.mem_cons_of_mem hd hx)
    · simp only [setMaker, if_neg hh] at hx
      rcases List.mem_cons.mp hx with rfl | hx
      · exact Or.inr (List.mem_cons_self x tl)
      · rcases ih hx with h1 | h1
        · exact Or.inl h1
        · exact Or.inr (List.mem_cons_of_mem hd h1)

theorem pairwise_setMaker (ms : List Maker) (m' : Maker)
    (h : ms.Pairwise (fun a b => a.miner ≠ b.miner)) :
    (setMaker ms m').Pairwise (fun a b => a.miner ≠ b.miner) := by
  induction ms with
  | nil => simp [setMaker]
  | cons hd tl ih =>
    rw [List.pairwise_cons] at h
    obtain ⟨hhd, htl⟩ := h
    by_cases hh : hd.miner = m'.miner
    · rw [setMaker, if_pos hh, List.pairwise_cons]
      refine ⟨fun b hb => ?_, htl⟩
      rw [← hh]
      exact hhd b hb
    · rw [setMaker, if_neg hh, List.pairwise_cons]
      refine ⟨fun b hb => ?_, ih htl⟩
      rcases mem_setMaker tl m' b hb with rfl | hb
      · exact hh
      · exact hhd b hb

theorem eraseMaker_sublist (ms : List Maker) (o : AccountName) :
    (eraseMaker ms o).Sublist ms := by
  induction ms with
  | nil => simp [eraseMaker]
  | cons hd tl ih =>
    by_cases hh : hd.miner = o
    · rw [eraseMaker, if_pos hh]
      exact (List.sublist_cons_self hd tl)
    · rw [eraseMaker, if_neg hh]
      exact ih.cons₂ hd

theorem findMaker_eraseMaker_ne (ms : List Maker) (o o' : AccountName) (hne : o' ≠ o) :
    findMaker (eraseMaker ms o) o' = findMaker ms o' := by
  induction ms with
  | nil => simp [eraseMaker]
  | cons hd tl ih =>
    by_cases hh : hd.miner = o
    · rw [eraseMaker, if_pos hh, findMaker, if_neg (by rw [hh]; exact fun c => hne c.symm)]
    · rw [eraseMaker, if_neg hh]
      by_cases hh2 : hd.miner = o'
      · rw [findMaker, if_pos hh2, findMaker, if_pos hh2]
      · rw [findMaker, if_neg hh2, findMaker, if_neg hh2]
        exact ih

theorem findMaker_mem (ms : List Maker) (o : AccountName) (x : Maker)
    (h : findMaker ms o = some x) : x ∈ ms := by
  induction ms with
  | nil => simp [findMaker] at h
  | cons hd tl ih =>
    by_cases hh : hd.miner = o
    · rw [findMaker, if_pos hh] at h
      cases h
      exact List.mem_cons_self _ _
    · rw [findMaker, if_neg hh] at h
      exact List.mem_cons_of_mem hd (ih h)

theorem findMaker_eraseMaker_self (ms : List Maker) (o : AccountName)
    (h : ms.Pairwise (fun a b => a.miner ≠ b.miner)) (mk : Maker)
    (hfm : findMaker ms o = some mk) :
    findMaker (eraseMaker ms o) o = none := by
  induction ms with
  | nil => simp [findMaker] at hfm
  | cons hd tl ih =>
    rw [List.pairwise_cons] at h
    obtain ⟨hhd, htl⟩ := h
    by_cases hh : hd.miner = o
    · rw [eraseMaker, if_pos hh]
      cases hfm2 : findMaker tl o with
      | none => rfl
      | some x =>
        have hxm : x ∈ tl := findMaker_mem tl o x hfm2
        have hxo : x.miner = o := findMaker_miner tl o x hfm2
        exact absurd (hh.trans hxo.symm) (hhd x hxm)
    · rw [eraseMaker, if_neg hh, findMaker, if_neg hh]
      rw [findMaker, if_neg hh] at hfm
      exact ih htl hfm

theorem mem_setMaker_nodup (ms : List Maker) (m' : Maker)
    (h : ms.Pairwise (fun a b => a.miner ≠ b.miner)) :
    ∀ x ∈ setMaker ms m', x = m' ∨ (x ∈ ms ∧ x.miner ≠ m'.miner) := by
  induction ms with
  | nil => intro x hx; simp [setMaker] at hx
  | cons hd tl ih =>
    rw [List.pairwise_cons] at h
    obtain ⟨hhd, htl⟩ := h
    intro x hx
    by_cases hh : hd.miner = m'.miner
    · rw [setMaker, if_pos hh] at hx
      rcases List.mem_cons.mp hx with rfl | hx
      · exact Or.inl rfl
      · refine Or.inr ⟨List.mem_cons_of_mem hd hx, ?_⟩
        rw [← hh]
        exact (hhd x hx).symm
    · rw [setMaker, if_neg hh] at hx
      rcases List.mem_cons.mp hx with rfl | hx
      · exact Or.inr ⟨List.mem_cons_self x tl, hh⟩
      · rcases ih htl x hx with h1 | ⟨h1, h2⟩
        · exact Or.inl h1
        · exact Or.inr ⟨List.mem_cons_of_mem hd h1, h2⟩

theorem mem_eraseMaker_nodup (ms : List Maker) (o : AccountName)
    (h : ms.Pairwise (fun a b => a.miner ≠ b.miner)) :
    ∀ x ∈ eraseMaker ms o, x ∈ ms ∧ (x.miner = o → findMaker ms o ≠ some x) := by
  induction ms with
  | nil => intro x hx; simp [eraseMaker] at hx
  | cons hd tl ih =>
    rw [List.pairwise_cons] at h
    obtain ⟨hhd, htl⟩ := h
    intro x hx
    by_cases hh : hd.miner = o
    · rw [eraseMaker, if_pos hh] at hx
      refine ⟨List.mem_cons_of_mem hd hx, fun hxo => ?_⟩
      exact absurd (hh.trans hxo.symm) (hhd x hx)
    · rw [eraseMaker, if_neg hh] at hx
      rcases List.mem_cons.mp hx with rfl | hx
      · refine ⟨List.mem_cons_self x tl, fun hxo => absurd hxo hh⟩
      · obtain ⟨h1, h2⟩ := ih htl x hx
        refine ⟨List.mem_cons_of_mem hd h1, fun hxo => ?_⟩
        rw [findMaker, if_neg hh]
        exact h2 hxo

/-! Pool-share list lemmas. -/

theorem findShare_owner (ps : List PoolShare) (o : AccountName) (p : PoolShare)
    (h : findShare ps o = some p) : p.owner = o := by
  induction ps with
  | nil => simp [findShare] at h
  | cons hd tl ih =>
    by_cases hh : hd.owner = o
    · rw [findShare, if_pos hh] at h
      cases h
      exact hh
    · rw [findShare, if_neg hh] at h
      exact ih h

theorem findShare_mem (ps : List PoolShare) (o : AccountName) (p : PoolShare)
    (h : findShare ps o = some p) : p ∈ ps := by
  induction ps with
  | nil => simp [findShare] at h
  | cons hd tl ih =>
    by_cases hh : hd.owner = o
    · rw [findShare, if_pos hh] at h
      cases h
      exact List.mem_cons_self _ _
    · rw [findShare, if_neg hh] at h
      exact List.mem_cons_of_mem hd (ih h)

theorem findShare_none_mem (ps : List PoolShare) (o : AccountName)
    (h : findShare ps o = none) : ∀ q ∈ ps, q.owner ≠ o := by
  induction ps with
  | nil => intro q hq; cases hq
  | cons hd tl ih =>
    intro q hq
    by_cases hh : hd.owner = o
    · simp [findShare, hh] at h
    · rw [findShare, if_neg hh] at h
      rcases List.mem_cons.mp hq with rfl | hq
      · exact hh
      · exact ih h q hq

theorem poolSum_modifyShare (f : PoolShare → PoolShare) (d : ℚ)
    (hw : ∀ q, (f q).weight = q.weight + d) (ps : List PoolShare) (o : AccountName)
    (p : PoolShare) (hf : findShare ps o = some p) :
    poolSum (modifyShare f ps o) = poolSum ps + d := by
  induction ps with
  | nil => simp [findShare] at hf
  | cons hd tl ih =>
    by_cases hh : hd.owner = o
    · rw [modifyShare, if_pos hh]
      simp only [poolSum, List.map_cons, List.sum_cons, hw]
      ring
    · rw [modifyShare, if_neg hh]
      rw [findShare, if_neg hh] at hf
      simp only [poolSum, List.map_cons, List.sum_cons] at *
      rw [ih hf]
      ring

theorem poolSum_eraseShare (ps : List PoolShare) (o : AccountName) (p : PoolShare)
    (hf : findShare ps o = some p) :
    poolSum (eraseShare ps o) = poolSum ps - p.weight := by
  induction ps with
  | nil => simp [findShare] at hf
  | cons hd tl ih =>
    by_cases hh : hd.owner = o
    · rw [findShare, if_pos hh] at hf
      cases hf
      rw [eraseShare, if_pos hh]
      simp only [poolSum, List.map_cons, List.sum_cons]
      ring
    · rw [eraseShare, if_neg hh]
      rw [findShare, if_neg hh] at hf
      simp only [poolSum, List.map_cons, List.sum_cons] at *
      rw [ih hf]
      ring

theorem mem_modifyShare_pairwise (f : PoolShare → PoolShare) (ps : List PoolShare)
    (o : AccountName) (h : ps.Pairwise (fun a b => a.owner ≠ b.owner))
    (p : PoolShare) (hf : findShare ps o = some p) :
    ∀ x ∈ modifyShare f ps o, x = f p ∨ (x ∈ ps ∧ x.owner ≠ o) := by
  induction ps with
  | nil => simp [findShare] at hf
  | cons hd tl ih =>
    rw [List.pairwise_cons] at h
    obtain ⟨hhd, htl⟩ := h
    intro x hx
    by_cases hh : hd.owner = o
    · rw [findShare, if_pos hh] at hf
      cases hf
      rw [modifyShare, if_pos hh] at hx
      rcases List.mem_cons.mp hx with rfl | hx
      · exact Or.inl rfl
      · refine Or.inr ⟨List.mem_cons_of_mem _ hx, ?_⟩
        rw [← hh]
        exact (hhd x hx).symm
    · rw [findShare, if_neg hh] at hf
      rw [modifyShare, if_neg hh] at hx
      rcases List.mem_cons.mp hx with rfl | hx
      · exact Or.inr ⟨List.mem_cons_self x tl, hh⟩
      · rcases ih htl hf x hx with h1 | ⟨h1, h2⟩
        · exact Or.inl h1
        · exact Or.inr ⟨List.mem_cons_of_mem hd h1, h2⟩

theorem eraseShare_sublist (ps : List PoolShare) (o : AccountName) :
    (eraseShare ps o).Sublist ps := by
  induction ps with
  | nil => simp [eraseShare]
  | cons hd tl ih =>
    by_cases hh : hd.owner = o
    · rw [eraseShare, if_pos hh]
      exact List.sublist_cons_self hd tl
    · rw [eraseShare, if_neg hh]
      exact ih.cons₂ hd

theorem mem_modifyShare (f : PoolShare → PoolShare) (ps : List PoolShare)
    (o : AccountName) : ∀ x ∈ modifyShare f ps o, (∃ r ∈ ps, x = f r) ∨ x ∈ ps := by
  induction ps with
  | nil => intro x hx; simp [modifyShare] at hx
  | cons hd tl ih =>
    intro x hx
    by_cases hh : hd.owner = o
    · rw [modifyShare, if_pos hh] at hx
      rcases List.mem_cons.mp hx with rfl | hx
      · exact Or.inl ⟨hd, List.mem_cons_self hd tl, rfl⟩
      · exact Or.inr (List.mem_cons_of_mem hd hx)
    · rw [modifyShare, if_neg hh] at hx
      rcases List.mem_cons.mp hx with rfl | hx
      · exact Or.inr (List.mem_cons_self x tl)
      · rcases ih x hx with ⟨r, hr, hxr⟩ | h1
        · exact Or.inl ⟨r, List.mem_cons_of_mem hd hr, hxr⟩
        · exact Or.inr (List.mem_cons_of_mem hd h1)

theorem pairwise_modifyShare (f : PoolShare → PoolShare)
    (ho : ∀ q, (f q).owner = q.owner) (ps : List PoolShare) (o : AccountName)
    (h : ps.Pairwise (fun a b => a.owner ≠ b.owner)) :
    (modifyShare f ps o).Pairwise (fun a b => a.owner ≠ b.owner) := by
  induction ps with
  | nil => simp [modifyShare]
  | cons hd tl ih =>
    rw [List.pairwise_cons] at h
    obtain ⟨hhd, htl⟩ := h
    by_cases hh : hd.owner = o
    · rw [modifyShare, if_pos hh, List.pairwise_cons]
      refine ⟨fun b hb => ?_, htl⟩
      rw [ho hd]
      exact hhd b hb
    · rw [modifyShare, if_neg hh, List.pairwise_cons]
      refine ⟨fun b hb => ?_, ih htl⟩
      rcases mem_modifyShare f tl o b hb with ⟨r, hr, hbr⟩ | h1
      · rw [hbr, ho]
        exact hhd r hr
      · exact hhd b h1

theorem findShare_modifyShare_self (f : PoolShare → PoolShare)
    (ho : ∀ q, (f q).owner = q.owner) (ps : List PoolShare) (o : AccountName) :
    findShare (modifyShare f ps o) o = (findShare ps o).map f := by
  induction ps with
  | nil => simp [modifyShare, findShare]
  | cons hd tl ih =>
    by_cases hh : hd.owner = o
    · rw [modifyShare, if_pos hh, findShare, if_pos (by rw [ho]; exact hh),
        findShare, if_pos hh, Option.map_some']
    · rw [modifyShare, if_neg hh, findShare, if_neg hh, findShare, if_neg hh]
      exact ih

theorem findMaker_append_none_inv (ms : List Maker) (mk : Maker) (o : AccountName)
    (h : findMaker (ms ++ [mk]) o = none) : findMaker ms o = none ∧ mk.miner ≠ o := by
  induction ms with
  | nil =>
    rw [List.nil_append] at h
    by_cases hh : mk.miner = o
    · rw [findMaker, if_pos hh] at h
      exact Option.noConfusion h
    · exact ⟨rfl, hh⟩
  | cons hd tl ih =>
    by_cases hh : hd.miner = o
    · rw [List.cons_append, findMaker, if_pos hh] at h
      exact Option.noConfusion h
    · rw [List.cons_append, findMaker, if_neg hh] at h
      obtain ⟨h1, h2⟩ := ih h
      exact ⟨by rw [findMaker, if_neg hh]; exact h1, h2⟩

theorem poolSum_append (ps : List PoolShare) (x : PoolShare) :
    poolSum (ps ++ [x]) = poolSum ps + x.weight := by
  simp [poolSum]

theorem poolSum_nonneg (ps : List PoolShare) (h : ∀ q ∈ ps, 0 < q.weight) :
    0 ≤ poolSum ps := by
  induction ps with
  | nil => simp [poolSum]
  | cons hd tl ih =>
    simp only [poolSum, List.map_cons, List.sum_cons]
    have h1 : 0 < hd.weight := h hd (List.mem_cons_self hd tl)
    have h2 : 0 ≤ poolSum tl := ih (fun q hq => h q (List.mem_cons_of_mem hd hq))
    simp only [poolSum] at h2
    linarith

theorem poolSum_pos (ps : List PoolShare) (h : ∀ q ∈ ps, 0 < q.weight)
    (hne : ps ≠ []) : 0 < poolSum ps := by
  cases ps with
  | nil => exact absurd rfl hne
  | cons hd tl =>
    simp only [poolSum, List.map_cons, List.sum_cons]
    have h1 : 0 < hd.weight := h hd (List.mem_cons_self hd tl)
    have h2 : 0 ≤ poolSum tl :=
      poolSum_nonneg tl (fun q hq => h q (List.mem_cons_of_mem hd hq))
    simp only [poolSum] at h2
    linarith

theorem weight_le_poolSum (ps : List PoolShare) (h : ∀ q ∈ ps, 0 < q.weight)
    (p : PoolShare) (hp : p ∈ ps) : p.weight ≤ poolSum ps := by
  refine List.single_le_sum (fun x hx => ?_) _ (List.mem_map_of_mem PoolShare.weight hp)
  rcases List.mem_map.mp hx with ⟨q, hq, rfl⟩
  exact (h q hq).le

theorem staked_sub_floor_pos (S : ℤ) (hS : 0 < S) (ow TW : ℚ) (hTW : 0 < TW)
    (how : ow < TW) : 0 < S - ⌊(S : ℚ) * (ow / TW)⌋ := by
  have hlt : ow / TW < 1 := (div_lt_one hTW).mpr how
  have hSq : (0 : ℚ) < (S : ℚ) := by exact_mod_cast hS
  have h1 : (S : ℚ) * (ow / TW) < (S : ℚ) := by
    calc (S : ℚ) * (ow / TW) < (S : ℚ) * 1 := mul_lt_mul_of_pos_left hlt hSq
      _ = (S : ℚ) := mul_one _
  have h2 : ⌊(S : ℚ) * (ow / TW)⌋ < S := Int.floor_lt.mpr (by exact_mod_cast h1)
  omega

/-- The well-formedness invariant of the maker pools: maker rows carry
distinct miners, every maker has positive stake, its pool has distinct
owners carrying positive weights summing exactly to the maker's
total_weight, and accounts without a maker row have an empty pool. -/
def PoolInv (s : TokenState) : Prop :=
  s.makers.Pairwise (fun a b => a.miner ≠ b.miner) ∧
  (∀ mk ∈ s.makers,
      0 < mk.total_staked ∧
      (poolOf s mk.miner).Pairwise (fun p q => p.owner ≠ q.owner) ∧
      (∀ p ∈ poolOf s mk.miner, 0 < p.weight) ∧
      poolSum (poolOf s mk.miner) = mk.total_weight) ∧
  (∀ m, findMaker s.makers m = none → poolOf s m = [])

theorem poolOf_mk (bl : List (AccountName × List Bill)) (mk : List Maker)
    (pl : List (AccountName × List PoolShare)) (ps : List (AccountName × ℤ)) (sup : ℤ)
    (bal : AccountName → Sym → ℤ) (lk : AccountName → ℤ) (od : List DmcOrder)
    (ch : List DmcChallenge) (pr : List PriceSample) (av : Option AvgRow)
    (cf : ℕ → Option ℕ) (o : AccountName) :
    poolOf (TokenState.mk bl mk pl ps sup bal lk od ch pr av cf) o = (scopeOf pl o).getD [] :=
  rfl

theorem pools_mk (bl : List (AccountName × List Bill)) (mk : List Maker)
    (pl : List (AccountName × List PoolShare)) (ps : List (AccountName × ℤ)) (sup : ℤ)
    (bal : AccountName → Sym → ℤ) (lk : AccountName → ℤ) (od : List DmcOrder)
    (ch : List DmcChallenge) (pr : List PriceSample) (av : Option AvgRow)
    (cf : ℕ → Option ℕ) :
    (TokenState.mk bl mk pl ps sup bal lk od ch pr av cf).pools = pl := rfl

theorem findMaker_setMaker_none (ms : List Maker) (o : AccountName) (m' : Maker)
    (h : findMaker (setMaker ms m') o = none) :
    findMaker ms o = none ∨ m'.miner ≠ o := by
  induction ms with
  | nil => exact Or.inl rfl
  | cons hd tl ih =>
    by_cases hh : hd.miner = m'.miner
    · rw [setMaker, if_pos hh] at h
      by_cases hmo : m'.miner = o
      · rw [findMaker, if_pos hmo] at h
        exact Option.noConfusion h
      · exact Or.inr hmo
    · rw [setMaker, if_neg hh] at h
      by_cases hho : hd.miner = o
      · rw [findMaker, if_pos hho] at h
        exact Option.noConfusion h
      · rw [findMaker, if_neg hho] at h
        rcases ih h with h1 | h2
        · exact Or.inl (by rw [findMaker, if_neg hho]; exact h1)
        · exact Or.inr h2

theorem findMaker_of_mem_nodup (ms : List Maker)
    (h : ms.Pairwise (fun a b => a.miner ≠ b.miner)) (mk : Maker) (hin : mk ∈ ms) :
    findMaker ms mk.miner = some mk := by
  induction ms with
  | nil => cases hin
  | cons hd tl ih =>
    rw [List.pairwise_cons] at h
    obtain ⟨hhd, htl⟩ := h
    rcases List.mem_cons.mp hin with rfl | hin
    · rw [findMaker, if_pos rfl]
    · rw [findMaker, if_neg (hhd mk hin)]
      exact ih htl hin

/-- Re-establishing the pool invariant after replacing one maker row and its
pool in a single transaction. -/
theorem poolInv_parts (s s' : TokenState) (miner : AccountName) (iter iter' : Maker)
    (hInv : PoolInv s)
    (hfm : findMaker s.makers miner = some iter)
    (hmin' : iter'.miner = miner)
    (pool1 : List PoolShare)
    (hmak' : s'.makers = setMaker s.makers iter')
    (hpls' : s'.pools = setScope s.pools miner pool1)
    (hstk' : 0 < iter'.total_staked)
    (hppw : pool1.Pairwise (fun p q => p.owner ≠ q.owner))
    (hppos : ∀ p ∈ pool1, 0 < p.weight)
    (hpsum : poolSum pool1 = iter'.total_weight) : PoolInv s' := by
  obtain ⟨hnd, hmk, hnm⟩ := hInv
  have hpoolOf_s : ∀ m0, (scopeOf s.pools m0).getD [] = poolOf s m0 := fun _ => rfl
  have hpoolOf' : ∀ m0, poolOf s' m0 = (scopeOf (setScope s.pools miner pool1) m0).getD [] := by
    intro m0
    rw [poolOf, hpls']
  refine ⟨?_, ?_, ?_⟩
  · rw [hmak']
    exact pairwise_setMaker s.makers iter' hnd
  · intro mk hmkm
    rw [hmak'] at hmkm
    rcases mem_setMaker_nodup s.makers iter' hnd mk hmkm with rfl | ⟨hin, hneq⟩
    · refine ⟨hstk', ?_⟩
      rw [hpoolOf', hmin', scopeOf_setScope_self, Option.getD_some]
      exact ⟨hppw, hppos, hpsum⟩
    · obtain ⟨h1, h2, h3, h4⟩ := hmk mk hin
      have hne2 : miner ≠ mk.miner := fun c => hneq (by rw [← c]; exact hmin'.symm)
      refine ⟨h1, ?_⟩
      rw [hpoolOf', scopeOf_setScope_ne _ _ _ _ hne2, hpoolOf_s]
      exact ⟨h2, h3, h4⟩
  · intro m0 hm0
    rw [hmak'] at hm0
    rcases findMaker_setMaker_none s.makers m0 iter' hm0 with h1 | h2
    · by_cases hm0m : m0 = miner
      · subst hm0m
        rw [h1] at hfm
        exact Option.noConfusion hfm
      · rw [hpoolOf', scopeOf_setScope_ne _ _ _ _ (fun c => hm0m c.symm), hpoolOf_s]
        exact hnm m0 h1
    · rw [findMaker_setMaker_ne _ _ _ h2] at hm0
      have hm0m : m0 ≠ miner := fun c => h2 (by rw [hmin', c])
      rw [hpoolOf', scopeOf_setScope_ne _ _ _ _ (fun c => hm0m c.symm), hpoolOf_s]
      exact hnm m0 hm0

/-- Re-establishing the pool invariant after a maker teardown: the maker row
is erased together with its last pool share. -/
theorem poolInv_erase (s s' : TokenState) (miner : AccountName) (iter : Maker)
    (hInv : PoolInv s)
    (hfm : findMaker s.makers miner = some iter)
    (hmak' : s'.makers = eraseMaker s.makers miner)
    (hpls' : s'.pools = setScope s.pools miner []) : PoolInv s' := by
  obtain ⟨hnd, hmk, hnm⟩ := hInv
  have hpoolOf_s : ∀ m0, (scopeOf s.pools m0).getD [] = poolOf s m0 := fun _ => rfl
  have hpoolOf' : ∀ m0,
      poolOf s' m0 = (scopeOf (setScope s.pools miner ([] : List PoolShare)) m0).getD [] := by
    intro m0
    rw [poolOf, hpls']
  refine ⟨?_, ?_, ?_⟩
  · rw [hmak']
    exact hnd.sublist (eraseMaker_sublist _ _)
  · intro mk hmkm
    rw [hmak'] at hmkm
    obtain ⟨hin, himp⟩ := mem_eraseMaker_nodup s.makers miner hnd mk hmkm
    obtain ⟨h1, h2, h3, h4⟩ := hmk mk hin
    have hne2 : mk.miner ≠ miner := by
      intro c
      have hthis := findMaker_of_mem_nodup s.makers hnd mk hin
      rw [c] at hthis
      exact himp c hthis
    refine ⟨h1, ?_⟩
    rw [hpoolOf', scopeOf_setScope_ne _ _ _ _ (fun c => hne2 c.symm), hpoolOf_s]
    exact ⟨h2, h3, h4⟩
  · intro m0 hm0
    rw [hmak'] at hm0
    by_cases hm0m : m0 = miner
    · subst hm0m
      rw [hpoolOf', scopeOf_setScope_self]
      rfl
    · rw [findMaker_eraseMaker_ne s.makers miner m0 hm0m] at hm0
      rw [hpoolOf', scopeOf_setScope_ne _ _ _ _ (fun c => hm0m c.symm), hpoolOf_s]
      exact hnm m0 hm0

theorem increase_poolInv (s s' : TokenState) (owner : AccountName) (amount : ℤ)
    (miner : AccountName) (hInv : PoolInv s)
    (hs : token.increase s owner amount miner = some s') : PoolInv s' := by
  obtain ⟨hnd, hmk, hnm⟩ := hInv
  have hpoolOf_s : ∀ m0, (scopeOf s.pools m0).getD [] = poolOf s m0 := fun _ => rfl
  unfold token.increase at hs
  split at hs
  · rename_i ha
    cases hsb : sub_balance s owner Sym.dmc amount with
    | none => rw [hsb] at hs; exact Option.noConfusion hs
    | some s1 =>
      simp only [hsb] at hs
      obtain ⟨-, hs1⟩ := sub_balance_spec s s1 owner Sym.dmc amount hsb
      have hmks1 : s1.makers = s.makers := by rw [hs1]
      have hpls1 : s1.pools = s.pools := by rw [hs1]
      have hpo1 : poolOf s1 miner = poolOf s miner := by rw [poolOf, poolOf, hpls1]
      rw [hmks1, hpo1] at hs
      cases hfm : findMaker s.makers miner with
      | none =>
        simp only [hfm] at hs
        split at hs
        · rename_i hom
          have hpe : poolOf s miner = [] := hnm miner hfm
          rw [hpe] at hs
          simp only [findShare, List.nil_append] at hs
          rw [Option.some.injEq] at hs
          subst hs
          have hmm : ∀ x ∈ s.makers, x.miner ≠ miner := findMaker_none_mem s.makers miner hfm
          refine ⟨?_, ?_, ?_⟩
          · simp only [makers_mk, emplaceMaker]
            rw [List.pairwise_append]
            refine ⟨hnd, by simp, ?_⟩
            intro x hx y hy
            simp only [List.mem_singleton] at hy
            subst hy
            show x.miner ≠ owner
            rw [hom]
            exact hmm x hx
          · intro mk hmkm
            simp only [makers_mk, emplaceMaker] at hmkm
            rcases List.mem_append.mp hmkm with hin | hin
            · obtain ⟨h1, h2, h3, h4⟩ := hmk mk hin
              have hne2 : miner ≠ mk.miner := fun c => hmm mk hin c.symm
              simp only [poolOf_mk]
              rw [hpls1, scopeOf_setScope_ne _ _ _ _ hne2, hpoolOf_s]
              exact ⟨h1, h2, h3, h4⟩
            · simp only [List.mem_singleton] at hin
              subst hin
              simp only [poolOf_mk]
              rw [hpls1, hom, scopeOf_setScope_self]
              refine ⟨ha, by simp, ?_, ?_⟩
              · intro p hp
                simp only [List.mem_singleton, Option.getD_some] at hp
                subst hp
                norm_num [static_weights]
              · simp [poolSum, static_weights]
          · intro m0 hm0
            simp only [makers_mk, emplaceMaker] at hm0
            obtain ⟨h1, h2⟩ := findMaker_append_none_inv _ _ _ hm0
            have h2' : owner ≠ m0 := h2
            have hne3 : miner ≠ m0 := by rw [← hom]; exact h2'
            simp only [poolOf_mk]
            rw [hpls1, scopeOf_setScope_ne _ _ _ _ hne3, hpoolOf_s]
            exact hnm m0 h1
        · exact Option.noConfusion hs
      | some iter =>
        simp only [hfm] at hs
        have hit_mem := findMaker_mem s.makers miner iter hfm
        have hit_min := findMaker_miner s.makers miner iter hfm
        obtain ⟨hstk, hpw, hpos, hsum⟩ := hmk iter hit_mem
        rw [hit_min] at hpw hpos hsum
        split at hs
        · rename_i hc
          simp only [poolOf_mk, pools_mk, makers_mk] at hs
          rw [hpls1] at hs
          rw [hpoolOf_s miner] at hs
          cases hpi : findShare (poolOf s miner) owner with
          | some psh =>
            simp only [hpi] at hs
            split at hs
            · exact Option.noConfusion hs
            · rename_i miner_iter hms
              split at hs
              · rw [Option.some.injEq] at hs
                subst hs
                refine ⟨?_, ?_, ?_⟩
                · simp only [makers_mk]
                  exact pairwise_setMaker s.makers _ hnd
                · intro mk hmkm
                  simp only [makers_mk] at hmkm
                  rcases mem_setMaker_nodup s.makers _ hnd mk hmkm with rfl | ⟨hin, hneq⟩
                  · refine ⟨add_pos hstk ha, ?_⟩
                    simp only [poolOf_mk]
                    rw [show ({ iter with
                        total_weight := iter.total_weight +
                          (amount : ℚ) / (iter.total_staked : ℚ) * iter.total_weight
                        total_staked := iter.total_staked + amount
                        current_rate := token.cal_current_rate s1
                          (get_real_asset (iter.total_staked + amount)) miner } : Maker).miner =
                      miner from hit_min]
                    rw [scopeOf_setScope_self, Option.getD_some]
                    refine ⟨pairwise_modifyShare
                        (fun sh => { sh with weight := sh.weight +
                          (amount : ℚ) / (iter.total_staked : ℚ) * iter.total_weight })
                        (fun q => rfl) _ _ hpw, ?_, ?_⟩
                    · intro p hp
                      rcases mem_modifyShare_pairwise
                          (fun sh => { sh with weight := sh.weight +
                            (amount : ℚ) / (iter.total_staked : ℚ) * iter.total_weight })
                          _ owner hpw psh hpi p hp with
                        rfl | ⟨hpmem, -⟩
                      · show 0 < psh.weight + (amount : ℚ) / (iter.total_staked : ℚ) * iter.total_weight
                        exact add_pos (hpos psh (findShare_mem _ _ _ hpi)) hc.1
                      · exact hpos p hpmem
                    · rw [poolSum_modifyShare
                        (fun sh => { sh with weight := sh.weight +
                          (amount : ℚ) / (iter.total_staked : ℚ) * iter.total_weight })
                        ((amount : ℚ) / (iter.total_staked : ℚ) * iter.total_weight)
                        (fun q => rfl) _ _ psh hpi, hsum]
                  · obtain ⟨h1, h2, h3, h4⟩ := hmk mk hin
                    have hne2 : miner ≠ mk.miner := by
                      intro c
                      exact hneq (by rw [← c]; exact hit_min.symm)
                    refine ⟨h1, ?_⟩
                    simp only [poolOf_mk]
                    rw [scopeOf_setScope_ne _ _ _ _ hne2, hpoolOf_s]
                    exact ⟨h2, h3, h4⟩
                · intro m0 hm0
                  simp only [makers_mk] at hm0
                  rcases findMaker_setMaker_none s.makers m0 _ hm0 with h1 | h2
                  · by_cases hm0m : m0 = miner
                    · subst hm0m
                      rw [h1] at hfm
                      exact Option.noConfusion hfm
                    · simp only [poolOf_mk]
                      rw [scopeOf_setScope_ne _ _ _ _ (fun c => hm0m c.symm), hpoolOf_s]
                      exact hnm m0 h1
                  · rw [findMaker_setMaker_ne _ _ _ h2] at hm0
                    have hm0m : m0 ≠ miner := by
                      intro c
                      subst c
                      exact h2 hit_min
                    simp only [poolOf_mk]
                    rw [scopeOf_setScope_ne _ _ _ _ (fun c => hm0m c.symm), hpoolOf_s]
                    exact hnm m0 hm0
              · exact Option.noConfusion hs
          | none =>
            simp only [hpi] at hs
            split at hs
            · exact Option.noConfusion hs
            · rename_i miner_iter hms
              split at hs
              · rw [Option.some.injEq] at hs
                subst hs
                have hnew : ∀ q ∈ poolOf s miner, q.owner ≠ owner :=
                  findShare_none_mem _ _ hpi
                refine ⟨?_, ?_, ?_⟩
                · simp only [makers_mk]
                  exact pairwise_setMaker s.makers _ hnd
                · intro mk hmkm
                  simp only [makers_mk] at hmkm
                  rcases mem_setMaker_nodup s.makers _ hnd mk hmkm with rfl | ⟨hin, hneq⟩
                  · refine ⟨add_pos hstk ha, ?_⟩
                    simp only [poolOf_mk]
                    rw [show ({ iter with
                        total_weight := iter.total_weight +
                          (amount : ℚ) / (iter.total_staked : ℚ) * iter.total_weight
                        total_staked := iter.total_staked + amount
                        current_rate := token.cal_current_rate s1
                          (get_real_asset (iter.total_staked + amount)) miner } : Maker).miner =
                      miner from hit_min]
                    rw [scopeOf_setScope_self, Option.getD_some]
                    refine ⟨?_, ?_, ?_⟩
                    · rw [List.pairwise_append]
                      refine ⟨hpw, by simp, ?_⟩
                      intro x hx y hy
                      simp only [List.mem_singleton] at hy
                      subst hy
                      exact hnew x hx
                    · intro p hp
                      rcases List.mem_append.mp hp with hin2 | hin2
                      · exact hpos p hin2
                      · simp only [List.mem_singleton] at hin2
                        subst hin2
                        exact hc.1
                    · rw [poolSum_append, hsum]
                  · obtain ⟨h1, h2, h3, h4⟩ := hmk mk hin
                    have hne2 : miner ≠ mk.miner := by
                      intro c
                      exact hneq (by rw [← c]; exact hit_min.symm)
                    refine ⟨h1, ?_⟩
                    simp only [poolOf_mk]
                    rw [scopeOf_setScope_ne _ _ _ _ hne2, hpoolOf_s]
                    exact ⟨h2, h3, h4⟩
                · intro m0 hm0
                  simp only [makers_mk] at hm0
                  rcases findMaker_setMaker_none s.makers m0 _ hm0 with h1 | h2
                  · by_cases hm0m : m0 = miner
                    · subst hm0m
                      rw [h1] at hfm
                      exact Option.noConfusion hfm
                    · simp only [poolOf_mk]
                      rw [scopeOf_setScope_ne _ _ _ _ (fun c => hm0m c.symm), hpoolOf_s]
                      exact hnm m0 h1
                  · rw [findMaker_setMaker_ne _ _ _ h2] at hm0
                    have hm0m : m0 ≠ miner := by
                      intro c
                      subst c
                      exact h2 hit_min
                    simp only [poolOf_mk]
                    rw [scopeOf_setScope_ne _ _ _ _ (fun c => hm0m c.symm), hpoolOf_s]
                    exact hnm m0 hm0
              · exact Option.noConfusion hs
        · exact Option.noConfusion hs
  · exact Option.noConfusion hs


theorem redemption_poolInv (s s' : TokenState) (owner : AccountName) (rate : ℚ)
    (miner : AccountName) (hInv : PoolInv s)
    (hs : token.redemption s owner rate miner = some s') : PoolInv s' := by
  obtain ⟨hnd, hmk, hnm⟩ := hInv
  unfold token.redemption at hs
  split at hs
  · rename_i hrate
    cases hfm : findMaker s.makers miner with
    | none => rw [hfm] at hs; exact Option.noConfusion hs
    | some iter =>
      simp only [hfm] at hs
      cases hfp : findShare (poolOf s miner) owner with
      | none => rw [hfp] at hs; exact Option.noConfusion hs
      | some p_iter =>
        simp only [hfp] at hs
        have hit_mem := findMaker_mem s.makers miner iter hfm
        have hit_min := findMaker_miner s.makers miner iter hfm
        obtain ⟨hstk, hpw, hpos, hsum⟩ := hmk iter hit_mem
        rw [hit_min] at hpw hpos hsum
        have hwp : 0 < p_iter.weight := hpos p_iter (findShare_mem _ _ _ hfp)
        have hple : p_iter.weight ≤ iter.total_weight := by
          rw [← hsum]
          exact weight_le_poolSum _ hpos p_iter (findShare_mem _ _ _ hfp)
        have hTW : 0 < iter.total_weight := lt_of_lt_of_le hwp hple
        by_cases hr1 : rate = 1
        · simp only [if_pos hr1] at hs
          have hesum : poolSum (eraseShare (poolOf s miner) owner) =
              iter.total_weight - p_iter.weight := by
            rw [poolSum_eraseShare _ _ _ hfp, hsum]
          have hspw : (eraseShare (poolOf s miner) owner).Pairwise
              (fun p q => p.owner ≠ q.owner) := hpw.sublist (eraseShare_sublist _ _)
          have hspos : ∀ p ∈ eraseShare (poolOf s miner) owner, 0 < p.weight :=
            fun p hp => hpos p ((eraseShare_sublist _ _).subset hp)
          cases hep : eraseShare (poolOf s miner) owner with
          | nil =>
            simp only [hep] at hs
            split at hs
            · exact Option.noConfusion hs
            · rw [if_pos hstk, if_pos (sub_self iter.total_staked)] at hs
              rw [Option.some.injEq] at hs
              refine poolInv_erase s s' miner iter ⟨hnd, hmk, hnm⟩ hfm ?_ ?_
              · rw [← hs]
                rfl
              · rw [← hs]
                rfl
          | cons q tl =>
            rw [hep] at hspw hspos hesum
            have hq1 : 0 < q.weight := hspos q (List.mem_cons_self q tl)
            cases tl with
            | nil =>
              have hlt : p_iter.weight * rate < iter.total_weight := by
                rw [hr1, mul_one]
                have hq2 : poolSum [q] = q.weight := by simp [poolSum]
                rw [hq2] at hesum
                linarith
              have hstak : 0 < iter.total_staked -
                  ⌊(iter.total_staked : ℚ) *
                    (p_iter.weight * rate / iter.total_weight)⌋ :=
                staked_sub_floor_pos _ hstk _ _ hTW hlt
              simp only [hep] at hs
              split at hs
              · exact Option.noConfusion hs
              · by_cases hq : 0 < ⌊(iter.total_staked : ℚ) *
                    (p_iter.weight * rate / iter.total_weight)⌋
                · rw [if_pos hq] at hs
                  rw [if_neg (show ¬(iter.total_staked -
                      ⌊(iter.total_staked : ℚ) *
                        (p_iter.weight * rate / iter.total_weight)⌋ = 0) from by omega)] at hs
                  rw [if_true] at hs
                  by_cases hck : 0 ≤ iter.total_staked -
                      ⌊(iter.total_staked : ℚ) *
                        (p_iter.weight * rate / iter.total_weight)⌋ ∧ 0 ≤ q.weight
                  · rw [if_pos hck] at hs
                    rw [Option.some.injEq] at hs
                    refine poolInv_parts s s' miner iter
                      ({ iter with
                        current_rate := token.cal_current_rate
                          { s with pools := setScope s.pools miner [q] }
                          (get_real_asset (iter.total_staked - ⌊(iter.total_staked : ℚ) *
                            (p_iter.weight * rate / iter.total_weight)⌋)) miner
                        total_weight := q.weight
                        total_staked := iter.total_staked - ⌊(iter.total_staked : ℚ) *
                          (p_iter.weight * rate / iter.total_weight)⌋ })
                      ⟨hnd, hmk, hnm⟩ hfm
                      ?g1 [q] ?g2 ?g3 ?g4 ?g5 ?g6 ?g7
                    case g2 => rw [← hs]; rfl
                    case g3 => rw [← hs]; rfl
                    case g1 => exact hit_min
                    case g4 => exact hstak
                    case g5 => simp
                    case g6 =>
                      intro p hp
                      rw [List.mem_singleton] at hp
                      subst hp
                      exact hq1
                    case g7 => show poolSum [q] = q.weight; simp [poolSum]
                  · rw [if_neg hck] at hs
                    exact Option.noConfusion hs
                · rw [if_neg hq] at hs
                  exact Option.noConfusion hs
            | cons q2 rest =>
              have hppos2 : 0 < poolSum (q :: q2 :: rest) :=
                poolSum_pos _ hspos (by simp)
              have hlt : p_iter.weight * rate < iter.total_weight := by
                rw [hr1, mul_one]
                linarith
              have hstak : 0 < iter.total_staked -
                  ⌊(iter.total_staked : ℚ) *
                    (p_iter.weight * rate / iter.total_weight)⌋ :=
                staked_sub_floor_pos _ hstk _ _ hTW hlt
              simp only [hep] at hs
              split at hs
              · exact Option.noConfusion hs
              · by_cases hq : 0 < ⌊(iter.total_staked : ℚ) *
                    (p_iter.weight * rate / iter.total_weight)⌋
                · rw [if_pos hq] at hs
                  rw [if_neg (show ¬(iter.total_staked -
                      ⌊(iter.total_staked : ℚ) *
                        (p_iter.weight * rate / iter.total_weight)⌋ = 0) from by omega)] at hs
                  rw [if_neg (show ¬((false : Bool) = true) from Bool.false_ne_true)] at hs
                  by_cases hck : 0 ≤ iter.total_staked -
                      ⌊(iter.total_staked : ℚ) *
                        (p_iter.weight * rate / iter.total_weight)⌋ ∧
                      0 ≤ iter.total_weight - p_iter.weight * rate
                  · rw [if_pos hck] at hs
                    rw [Option.some.injEq] at hs
                    refine poolInv_parts s s' miner iter
                      ({ iter with
                        current_rate := token.cal_current_rate
                          { s with pools := setScope s.pools miner (q :: q2 :: rest) }
                          (get_real_asset (iter.total_staked - ⌊(iter.total_staked : ℚ) *
                            (p_iter.weight * rate / iter.total_weight)⌋)) miner
                        total_weight := iter.total_weight - p_iter.weight * rate
                        total_staked := iter.total_staked - ⌊(iter.total_staked : ℚ) *
                          (p_iter.weight * rate / iter.total_weight)⌋ })
                      ⟨hnd, hmk, hnm⟩ hfm
                      ?h1 (q :: q2 :: rest) ?h2 ?h3 ?h4 ?h5 ?h6 ?h7
                    case h2 => rw [← hs]; rfl
                    case h3 => rw [← hs]; rfl
                    case h1 => exact hit_min
                    case h4 => exact hstak
                    case h5 => exact hspw
                    case h6 => exact hspos
                    case h7 =>
                      show poolSum (q :: q2 :: rest) =
                        iter.total_weight - p_iter.weight * rate
                      rw [hr1, mul_one]
                      exact hesum
                  · rw [if_neg hck] at hs
                    exact Option.noConfusion hs
                · rw [if_neg hq] at hs
                  exact Option.noConfusion hs
        · simp only [if_neg hr1] at hs
          have hrlt : rate < 1 := lt_of_le_of_ne hrate.2 hr1
          have hfps : findShare (modifyShare
              (fun sh => { sh with weight := sh.weight - p_iter.weight * rate })
              (poolOf s miner) owner) owner =
              some ({ p_iter with weight := p_iter.weight - p_iter.weight * rate }) := by
            rw [findShare_modifyShare_self (fun sh => { sh with weight := sh.weight - p_iter.weight * rate }) (fun q => rfl), hfp, Option.map_some']
          simp only [hfps] at hs
          by_cases hw2 : 0 < p_iter.weight - p_iter.weight * rate
          · simp only [if_pos hw2, hfps] at hs
            have hlt : p_iter.weight * rate < iter.total_weight := by linarith
            have hstak : 0 < iter.total_staked -
                ⌊(iter.total_staked : ℚ) *
                  (p_iter.weight * rate / iter.total_weight)⌋ :=
              staked_sub_floor_pos _ hstk _ _ hTW hlt
            split at hs
            · exact Option.noConfusion hs
            · by_cases hq : 0 < ⌊(iter.total_staked : ℚ) *
                  (p_iter.weight * rate / iter.total_weight)⌋
              · rw [if_pos hq] at hs
                rw [if_neg (show ¬(iter.total_staked -
                    ⌊(iter.total_staked : ℚ) *
                      (p_iter.weight * rate / iter.total_weight)⌋ = 0) from by omega)] at hs
                rw [if_neg (show ¬((false : Bool) = true) from Bool.false_ne_true)] at hs
                by_cases hck : 0 ≤ iter.total_staked -
                    ⌊(iter.total_staked : ℚ) *
                      (p_iter.weight * rate / iter.total_weight)⌋ ∧
                    0 ≤ iter.total_weight - p_iter.weight * rate
                · rw [if_pos hck] at hs
                  by_cases hfin : (1 / 10000 : ℚ) <
                      (p_iter.weight - p_iter.weight * rate) /
                        (iter.total_weight - p_iter.weight * rate)
                  · rw [if_pos hfin] at hs
                    rw [Option.some.injEq] at hs
                    refine poolInv_parts s s' miner iter
                      ({ iter with
                        current_rate := token.cal_current_rate
                          { s with pools := setScope s.pools miner (modifyShare
                            (fun sh => { sh with weight := sh.weight - p_iter.weight * rate })
                            (poolOf s miner) owner) }
                          (get_real_asset (iter.total_staked - ⌊(iter.total_staked : ℚ) *
                            (p_iter.weight * rate / iter.total_weight)⌋)) miner
                        total_weight := iter.total_weight - p_iter.weight * rate
                        total_staked := iter.total_staked - ⌊(iter.total_staked : ℚ) *
                          (p_iter.weight * rate / iter.total_weight)⌋ })
                      ⟨hnd, hmk, hnm⟩ hfm
                      ?k1 (modifyShare
                        (fun sh => { sh with weight := sh.weight - p_iter.weight * rate })
                        (poolOf s miner) owner) ?k2 ?k3 ?k4 ?k5 ?k6 ?k7
                    case k2 => rw [← hs]; rfl
                    case k3 => rw [← hs]; rfl
                    case k1 => exact hit_min
                    case k4 => exact hstak
                    case k5 =>
                      exact pairwise_modifyShare
                        (fun sh => { sh with weight := sh.weight - p_iter.weight * rate })
                        (fun q => rfl) _ _ hpw
                    case k6 =>
                      intro p hp
                      rcases mem_modifyShare_pairwise
                          (fun sh => { sh with weight := sh.weight - p_iter.weight * rate })
                          _ owner hpw p_iter hfp p hp with rfl | ⟨hpmem, -⟩
                      · exact hw2
                      · exact hpos p hpmem
                    case k7 =>
                      show poolSum (modifyShare
                          (fun sh => { sh with weight := sh.weight - p_iter.weight * rate })
                          (poolOf s miner) owner) =
                        iter.total_weight - p_iter.weight * rate
                      rw [poolSum_modifyShare
                        (fun sh => { sh with weight := sh.weight - p_iter.weight * rate })
                        (-(p_iter.weight * rate))
                        (fun q => by show q.weight - _ = q.weight + _; ring) _ _ p_iter hfp,
                        hsum]
                      ring
                  · rw [if_neg hfin] at hs
                    exact Option.noConfusion hs
                · rw [if_neg hck] at hs
                  exact Option.noConfusion hs
              · rw [if_neg hq] at hs
                exact Option.noConfusion hs
          · rw [if_neg hw2] at hs
            exact Option.noConfusion hs
  · exact Option.noConfusion hs

/-- A pool-mutating call: token::increase or token::redemption with the
caller-chosen arguments. -/
inductive PoolOp where
  | inc : AccountName → ℤ → AccountName → PoolOp
  | red : AccountName → ℚ → AccountName → PoolOp
deriving DecidableEq

/-- Apply one pool operation; an aborted call leaves the state unchanged
(the eosio transaction reverts). -/
def applyPoolOp (s : TokenState) : PoolOp → TokenState
  | PoolOp.inc o a m => (token.increase s o a m).getD s
  | PoolOp.red o r m => (token.redemption s o r m).getD s

/-- Run a sequence of increase / redemption calls. -/
def runPoolOps : TokenState → List PoolOp → TokenState
  | s, [] => s
  | s, op :: ops => runPoolOps (applyPoolOp s op) ops

theorem applyPoolOp_poolInv (s : TokenState) (op : PoolOp) (h : PoolInv s) :
    PoolInv (applyPoolOp s op) := by
  cases op with
  | inc o a m =>
    rw [applyPoolOp]
    cases hs : token.increase s o a m with
    | none => rw [Option.getD_none]; exact h
    | some s2 => rw [Option.getD_some]; exact increase_poolInv s s2 o a m h hs
  | red o r m =>
    rw [applyPoolOp]
    cases hs : token.redemption s o r m with
    | none => rw [Option.getD_none]; exact h
    | some s2 => rw [Option.getD_some]; exact redemption_poolInv s s2 o r m h hs

theorem runPoolOps_poolInv (s : TokenState) (ops : List PoolOp) (h : PoolInv s) :
    PoolInv (runPoolOps s ops) := by
  induction ops generalizing s with
  | nil => exact h
  | cons op ops ih => exact ih (applyPoolOp s op) (applyPoolOp_poolInv s op h)

/-- C2: starting from any state satisfying the pool well-formedness invariant
(of which the claimed property is one conjunct; the empty genesis table
satisfies it), after any sequence of token::increase and token::redemption
calls, every maker row's total_weight equals the exact sum of the weights of
the PoolShare rows in that maker's pool scope.  In the real-number model the
equality is exact, which implies the claim's floating-point-tolerance
phrasing. -/
theorem C2_pool_weight_sum (s : TokenState) (ops : List PoolOp) (h : PoolInv s) :
    ∀ mk ∈ (runPoolOps s ops).makers,
      poolSum (poolOf (runPoolOps s ops) mk.miner) = mk.total_weight :=
  fun mk hmk => ((runPoolOps_poolInv s ops h).2.1 mk hmk).2.2.2

def stateW2 : TokenState :=
  { bills := [], makers := [], pools := [], pst_stats := [], pst_supply := 0,
    balances := fun _ _ => 100, locked_balances := fun _ => 0, orders := [],
    challenges := [], prices := [], avg := none, config := fun _ => none }

def opsW2 : List PoolOp :=
  [PoolOp.inc 5 7 5, PoolOp.inc 6 3 5, PoolOp.red 6 (1/2) 5]

theorem C2_pool_weight_sum_witness :
    PoolInv stateW2 ∧
      ∀ mk ∈ (runPoolOps stateW2 opsW2).makers,
        poolSum (poolOf (runPoolOps stateW2 opsW2) mk.miner) = mk.total_weight := by
  have h : PoolInv stateW2 := by
    refine ⟨List.Pairwise.nil, ?_, ?_⟩
    · intro mk hmk
      cases hmk
    · intro m hm
      rfl
  exact ⟨h, C2_pool_weight_sum stateW2 opsW2 h⟩

/-- The liquidation drain loop keeps the remaining burn target nonnegative,
leaves the minted stats, oracle average and config untouched, and preserves
nonnegative maker stakes and weights (bonus accrual only adds to a stake). -/
theorem drain_bills_spec (owner : AccountName) (now : ℕ) (bs : List Bill) :
    ∀ (s : TokenState) (l : ℤ) (s2 : TokenState) (l2 : ℤ),
      token.drain_bills owner now bs s l = some (s2, l2) →
      (0 ≤ l → 0 ≤ l2) ∧
      s2.pst_stats = s.pst_stats ∧ s2.avg = s.avg ∧ s2.config = s.config ∧
      ((∀ x ∈ s.makers, 0 ≤ x.total_staked ∧ 0 ≤ x.total_weight) →
        ∀ x ∈ s2.makers, 0 ≤ x.total_staked ∧ 0 ≤ x.total_weight) := by
  induction bs with
  | nil =>
    intro s l s2 l2 h
    rw [token.drain_bills, Option.some.injEq, Prod.mk.injEq] at h
    obtain ⟨h1, h2⟩ := h
    subst h1
    subst h2
    exact ⟨fun hl => hl, rfl, rfl, rfl, fun hP => hP⟩
  | cons b bs ih =>
    intro s l s2 l2 h
    rw [token.drain_bills] at h
    split at h
    · rename_i hl0
      cases hcb : token.calbonus s owner b.bill_id now with
      | none => rw [hcb] at h; exact Option.noConfusion h
      | some p =>
        obtain ⟨t, s1⟩ := p
        simp only [hcb] at h
        obtain ⟨ust, iter, hfb, hfm, ht, hbills, hpools, hpst, hsup, hbal, hlock,
          hord, hch, hprc, havg, hcfg, dq, hdq, hmkor⟩ :=
          calbonus_spec s s1 owner b.bill_id now t hcb
        obtain ⟨g1, g2, g3, g4, g5⟩ := ih _ _ _ _ h
        refine ⟨?_, ?_, ?_, ?_, ?_⟩
        · intro hl
          apply g1
          split
          · rename_i hub
            omega
          · exact le_refl 0
        · rw [g2]
          exact hpst
        · rw [g3]
          exact havg
        · rw [g4]
          exact hcfg
        · intro hP
          apply g5
          intro x hx
          have hx1 : x ∈ s1.makers := hx
          rcases hmkor with hmm | hmm
          · refine hP x ?_
            rw [← hmm]
            exact hx1
          · have hx2 : x ∈ setMaker s.makers { iter with total_staked := iter.total_staked + dq } := by
              rw [← hmm]
              exact hx1
            rcases mem_setMaker s.makers _ x hx2 with rfl | hxm
            · have hit := hP iter (findMaker_mem _ _ _ hfm)
              exact ⟨add_nonneg hit.1 hdq, hit.2⟩
            · exact hP x hxm
    · rw [Option.some.injEq, Prod.mk.injEq] at h
      obtain ⟨h1, h2⟩ := h
      subst h1
      subst h2
      exact ⟨fun hl => hl, rfl, rfl, rfl, fun hP => hP⟩

/-- The liquidation apply step on one queued entry: the owner's minted
stats drop by the queued burn and the maker row keeps its weight while its
stake drops by the queued penalty. -/
theorem liq_apply_step_spec (s : TokenState) (o : AccountName) (p d : ℤ) (mkNow : Maker)
    (hfm : findMaker s.makers o = some mkNow) :
    (pstAmountOf (token.liq_apply_step s (o, p, d)) o).getD 0 = (pstAmountOf s o).getD 0 - p ∧
    ∃ mk', findMaker (token.liq_apply_step s (o, p, d)).makers o = some mk' ∧
      mk'.total_staked = mkNow.total_staked - d ∧ mk'.total_weight = mkNow.total_weight := by
  have hfm2 : findMaker (sub_stats (change_pst s o (-p)) p).makers o = some mkNow := hfm
  simp only [token.liq_apply_step, hfm2]
  constructor
  · show (Option.getD (scopeOf (setScope s.pst_stats o ((pstAmountOf s o).getD 0 + (-p))) o) 0) =
      (pstAmountOf s o).getD 0 - p
    rw [scopeOf_setScope_self, Option.getD_some]
    ring
  · refine ⟨{ mkNow with
        total_staked := mkNow.total_staked - d
        current_rate := token.cal_current_rate (sub_stats (change_pst s o (-p)) p)
          (get_real_asset (mkNow.total_staked - d)) o }, ?_, rfl, rfl⟩
    show findMaker (setMaker (sub_stats (change_pst s o (-p)) p).makers _) o = _
    exact findMaker_setMaker_self _ o mkNow _ hfm2
      (show mkNow.miner = o from findMaker_miner _ _ _ hfm)

/-- C3: for a maker selected by the liquidation scan (its current_rate is
below its valued benchmark, the guard of the byrate walk), when the scan
step queues a burn/penalty pair then the burned PST is at most
ceil((1 - rate/benchmark) * valued(minted)), the penalty equals
ceil((1 - rate/benchmark) * valued(total_staked at queue time) *
penalty_rate/100), and the apply phase reduces that maker's minted stats by
exactly the drained amount and its total_staked by exactly the penalty,
leaving total_staked and total_weight nonnegative.  Hypotheses: maker rows
carry nonnegative stakes and weights, the rate is nonnegative and the
effective penalty rate is at most 100 percent. -/
theorem C3_liquidation_penalty (s : TokenState) (now : ℕ) (mk : Maker)
    (s2 : TokenState) (owner : AccountName) (pst dmc : ℤ)
    (hWF : ∀ x ∈ s.makers, 0 ≤ x.total_staked ∧ 0 ≤ x.total_weight)
    (hsel : mk.current_rate < token.get_dmc_rate s mk.get_n)
    (hr0 : 0 ≤ mk.current_rate)
    (hpr : token.get_dmc_config s penaltyrate_n default_penalty_rate ≤ 100)
    (hscan : token.liq_scan_step s now mk = some (s2, some (owner, pst, dmc))) :
    owner = mk.miner ∧
    pst ≤ get_asset_by_amount_ceil ((1 - mk.current_rate / token.get_dmc_rate s mk.get_n) *
      get_real_asset ((pstAmountOf s mk.miner).getD 0)) ∧
    ∃ mkNow, findMaker s2.makers mk.miner = some mkNow ∧
      dmc = get_asset_by_amount_ceil ((1 - mk.current_rate / token.get_dmc_rate s mk.get_n) *
        get_real_asset mkNow.total_staked *
        (token.get_dmc_config s penaltyrate_n default_penalty_rate : ℚ) / 100) ∧
      dmc ≤ mkNow.total_staked ∧
      (pstAmountOf (token.liq_apply_step s2 (owner, pst, dmc)) mk.miner).getD 0 =
        (pstAmountOf s2 mk.miner).getD 0 - pst ∧
      ∃ mk', findMaker (token.liq_apply_step s2 (owner, pst, dmc)).makers mk.miner = some mk' ∧
        mk'.total_staked = mkNow.total_staked - dmc ∧
        mk'.total_weight = mkNow.total_weight ∧
        0 ≤ mk'.total_staked ∧ 0 ≤ mk'.total_weight := by
  simp only [token.liq_scan_step] at hscan
  split at hscan
  · exact Option.noConfusion hscan
  · rename_i s1 hsb
    obtain ⟨hble, hs1⟩ := sub_balance_spec s s1 mk.miner Sym.pst _ hsb
    have hm1 : s1.makers = s.makers := by rw [hs1]
    have hp1 : s1.pst_stats = s.pst_stats := by rw [hs1]
    have ha1 : s1.avg = s.avg := by rw [hs1]
    have hc1 : s1.config = s.config := by rw [hs1]
    split at hscan
    · exact Option.noConfusion hscan
    · rename_i sM leftover hdr
      obtain ⟨g1, g2, g3, g4, g5⟩ :=
        drain_bills_spec mk.miner now (billsOf s1 mk.miner) s1 _ sM leftover hdr
      have hl2 : 0 ≤ leftover := g1 (le_max_right _ 0)
      split at hscan
      · exact Option.noConfusion hscan
      · rename_i mkNow hfmk
        split at hscan
        · rename_i hcond
          rw [Option.some.injEq, Prod.mk.injEq, Option.some.injEq, Prod.mk.injEq,
            Prod.mk.injEq] at hscan
          obtain ⟨hs2, hown, hpst, hdmc⟩ := hscan
          subst hs2
          subst hown
          subst hpst
          subst hdmc
          have hWFM : ∀ x ∈ sM.makers, 0 ≤ x.total_staked ∧ 0 ≤ x.total_weight := by
            apply g5
            intro x hx
            rw [hm1] at hx
            exact hWF x hx
          have hmkWF := hWFM mkNow (findMaker_mem _ _ _ hfmk)
          have hm0 : 0 < token.get_dmc_rate s mk.get_n := lt_of_le_of_lt hr0 hsel
          have hcfgM : token.get_dmc_config sM penaltyrate_n default_penalty_rate =
              token.get_dmc_config s penaltyrate_n default_penalty_rate := by
            simp only [token.get_dmc_config]
            rw [g4, hc1]
          have hmm : mkNow.miner = mk.miner := findMaker_miner _ _ _ hfmk
          have hf1 : mk.current_rate / token.get_dmc_rate s mk.get_n < 1 :=
            (div_lt_one hm0).mpr hsel
          have hf0 : 0 ≤ mk.current_rate / token.get_dmc_rate s mk.get_n :=
            div_nonneg hr0 hm0.le
          have hstq : (0 : ℚ) ≤ (mkNow.total_staked : ℚ) := by exact_mod_cast hmkWF.1
          have hprq : ((token.get_dmc_config s penaltyrate_n default_penalty_rate : ℕ) : ℚ) ≤ 100 := by
            exact_mod_cast hpr
          have hpr0 : (0 : ℚ) ≤ ((token.get_dmc_config s penaltyrate_n default_penalty_rate : ℕ) : ℚ) := by
            positivity
          have hpen : (1 - mk.current_rate / token.get_dmc_rate s mk.get_n) *
              get_real_asset mkNow.total_staked *
              ((token.get_dmc_config s penaltyrate_n default_penalty_rate : ℕ) : ℚ) / 100 ≤
              (mkNow.total_staked : ℚ) := by
            rw [get_real_asset]
            have hX0 : 0 ≤ (1 - mk.current_rate / token.get_dmc_rate s mk.get_n) *
                (mkNow.total_staked : ℚ) := mul_nonneg (by linarith) hstq
            have h1 : (1 - mk.current_rate / token.get_dmc_rate s mk.get_n) *
                (mkNow.total_staked : ℚ) ≤ (mkNow.total_staked : ℚ) := by
              nlinarith
            have h2 : (1 - mk.current_rate / token.get_dmc_rate s mk.get_n) *
                (mkNow.total_staked : ℚ) *
                ((token.get_dmc_config s penaltyrate_n default_penalty_rate : ℕ) : ℚ) / 100 ≤
                (1 - mk.current_rate / token.get_dmc_rate s mk.get_n) *
                (mkNow.total_staked : ℚ) := by
              rw [div_le_iff₀ (by norm_num : (0:ℚ) < 100)]
              nlinarith
            linarith
          have hdle : get_asset_by_amount_ceil
              ((1 - mk.current_rate / token.get_dmc_rate s mk.benchmark_stake_rate) *
                get_real_asset mkNow.total_staked *
                ((token.get_dmc_config sM penaltyrate_n default_penalty_rate : ℕ) : ℚ) / 100) ≤
              mkNow.total_staked := by
            rw [hcfgM, get_asset_by_amount_ceil]
            exact Int.ceil_le.mpr hpen
          refine ⟨rfl, ?_, mkNow, hfmk, ?_, hdle,
            (liq_apply_step_spec sM mk.miner _ _ mkNow hfmk).1, ?_⟩
          · simp only [Maker.get_n]
            omega
          · rw [hcfgM]
            simp only [Maker.get_n]
          · obtain ⟨mk', hfres, hstres, hwtres⟩ :=
              (liq_apply_step_spec sM mk.miner _ _ mkNow hfmk).2
            refine ⟨mk', hfres, hstres, hwtres, ?_, ?_⟩
            · omega
            · rw [hwtres]
              exact hmkWF.2
        · rw [Option.some.injEq, Prod.mk.injEq] at hscan
          exact Option.noConfusion hscan.2

/-- The maker of the C3 witness state: rate 1 against a valued benchmark
of 2, stake 10, minted PST 2. -/
def makerW3 : Maker :=
  { miner := 4, current_rate := 1, miner_rate := 1, total_weight := 10000,
    total_staked := 10, benchmark_stake_rate := 200, rate_updated_at := 0 }

/-- The C3 witness state: maker 4 under its benchmark with free PST 5 and
no open bills, so the whole burn comes from the free balance. -/
def stateW3 : TokenState :=
  { state0 with makers := [makerW3],
                pools := [(4, [{ owner := 4, weight := 10000 }])],
                pst_stats := [(4, 2)],
                balances := setBal state0.balances 4 Sym.pst 5 }

/-- The C3 witness state after the scan step: one burned PST left the free
balance; the queue holds (4, burn 1, penalty 2). -/
def stateW3' : TokenState :=
  { stateW3 with balances := setBal stateW3.balances 4 Sym.pst 4 }

theorem C3_liquidation_penalty_witness :
    (∀ x ∈ stateW3.makers, 0 ≤ x.total_staked ∧ 0 ≤ x.total_weight) ∧
    makerW3.current_rate < token.get_dmc_rate stateW3 makerW3.get_n ∧
    0 ≤ makerW3.current_rate ∧
    token.get_dmc_config stateW3 penaltyrate_n default_penalty_rate ≤ 100 ∧
    token.liq_scan_step stateW3 0 makerW3 = some (stateW3', some (4, 1, 2)) ∧
    ∃ mkNow, findMaker stateW3'.makers 4 = some mkNow ∧
      (2 : ℤ) ≤ mkNow.total_staked ∧
      ∃ mk', findMaker (token.liq_apply_step stateW3' (4, 1, 2)).makers 4 = some mk' ∧
        mk'.total_staked = mkNow.total_staked - 2 ∧ 0 ≤ mk'.total_staked := by
  have hWF : ∀ x ∈ stateW3.makers, 0 ≤ x.total_staked ∧ 0 ≤ x.total_weight := by
    intro x hx
    simp only [stateW3, state0, List.mem_singleton] at hx
    subst hx
    norm_num [makerW3]
  have hsel : makerW3.current_rate < token.get_dmc_rate stateW3 makerW3.get_n := by
    norm_num [makerW3, Maker.get_n, token.get_dmc_rate, token.oracle_price,
      token.get_dmc_config, stateW3, state0, initalprice_n, default_initial_price]
  have hr0 : 0 ≤ makerW3.current_rate := by norm_num [makerW3]
  have hpr : token.get_dmc_config stateW3 penaltyrate_n default_penalty_rate ≤ 100 := by
    norm_num [token.get_dmc_config, stateW3, state0, penaltyrate_n, default_penalty_rate]
  have h : token.liq_scan_step stateW3 0 makerW3 = some (stateW3', some (4, 1, 2)) := by
    norm_num [token.liq_scan_step, token.drain_bills, sub_balance, setBal, billsOf,
      findMaker, pstAmountOf, scopeOf, setScope, token.get_dmc_rate, token.oracle_price,
      token.get_dmc_config, get_real_asset, get_asset_by_amount_ceil,
      ceil_eq_neg_floor_neg, min_def, max_def, penaltyrate_n, default_penalty_rate,
      initalprice_n, default_initial_price, stateW3, stateW3', state0, makerW3]
  obtain ⟨-, -, mkNow, hq3, -, hq5, -, mk', hq7, hq8, -, hq10, -⟩ :=
    C3_liquidation_penalty stateW3 0 makerW3 stateW3' 4 1 2 hWF hsel hr0 hpr h
  exact ⟨hWF, hsel, hr0, hpr, h, mkNow, hq3, hq5, mk', hq7, hq8, hq10⟩

end DmcToken
